import Mathlib

/-!
Verification of the Billboard-Artists collaboration graph engine.

This file gives a shallow embedding, over `List Char` strings and
association lists (Python dicts preserve insertion order, which the
association-list representation mirrors), of:

  * `src/backend/scripts/data_processor.py` — artist extraction and the
    collaboration / song-index builder (`DataProcessor`);
  * `src/backend/data_access.py` — the query engine (`DataAccessLayer`);
  * `src/backend/scripts/visualize.py` — `shrink_graph_degree`;
  * `src/scripts/process_csv.py` — `Song.serialise` / `Song.deserialise`;

followed by theorems settling the spec claims about them.  Python `set`
values have no specified iteration order; wherever the source iterates a
set, the embedding fixes a concrete order (first-occurrence order), which
is one of the behaviours the source may exhibit.
-/

namespace BB

/-- Strings are modelled as lists of characters. -/
abbrev Str := List Char

/-- Shorthand turning a Lean string literal into the `Str` model. -/
def S (s : String) : Str := s.data

/-- Python `str.isspace` characters that `str.strip()` removes (ASCII part). -/
def isSpaceChar (c : Char) : Bool :=
  c = ' ' || c = '\t' || c = '\n' || c = '\r' || c = Char.ofNat 11 || c = Char.ofNat 12

/-- Python `s.strip()`: drop whitespace from both ends. -/
def pstrip (s : Str) : Str :=
  ((s.dropWhile isSpaceChar).reverse.dropWhile isSpaceChar).reverse

/-- `leadsWith p s`: `s` starts with `p`. -/
def leadsWith : Str → Str → Bool
  | [], _ => true
  | _ :: _, [] => false
  | p :: ps, c :: cs => p = c && leadsWith ps cs

/-- Python `p in s`: `p` occurs as a contiguous substring of `s`. -/
def occursIn (p : Str) : Str → Bool
  | [] => p.isEmpty
  | c :: rest => leadsWith p (c :: rest) || occursIn p rest

/-- Worker for `splitSub`; `acc` is the current segment, reversed, and
`skip` counts separator characters still to be consumed after a match. -/
def splitGo (sep : Str) : Str → Str → Nat → List Str
  | [], acc, _ => [acc.reverse]
  | _ :: rest, acc, skip + 1 => splitGo sep rest acc skip
  | c :: rest, acc, 0 =>
    if leadsWith sep (c :: rest) then
      acc.reverse :: splitGo sep rest [] (sep.length - 1)
    else
      splitGo sep rest (c :: acc) 0

/-- Python `s.split(sep)` for a non-empty separator: leftmost,
non-overlapping occurrences of `sep` delimit the segments. -/
def splitSub (sep s : Str) : List Str :=
  if sep.isEmpty then [s] else splitGo sep s [] 0

/-- Worker for `replaceAll`, with the same skip-counter scheme. -/
def replGo (pat rep : Str) : Str → Nat → Str
  | [], _ => []
  | _ :: rest, skip + 1 => replGo pat rep rest skip
  | c :: rest, 0 =>
    if !pat.isEmpty && leadsWith pat (c :: rest) then
      rep ++ replGo pat rep rest (pat.length - 1)
    else
      c :: replGo pat rep rest 0

/-- Python `re.sub(re.escape(pat), rep, s)` for a non-empty literal `pat`:
replace every leftmost, non-overlapping occurrence. -/
def replaceAll (pat rep s : Str) : Str := replGo pat rep s 0

/-- Python `str.lower` (ASCII model, matching the data set). -/
def lowerStr (s : Str) : Str := s.map Char.toLower

/-- Python string `<=`: lexicographic comparison by code point. -/
def lexLE : Str → Str → Bool
  | [], _ => true
  | _ :: _, [] => false
  | a :: as, b :: bs =>
    if a.toNat < b.toNat then true
    else if a.toNat = b.toNat then lexLE as bs
    else false

/-- Fuelled worker for `natChars`; the fuel only needs to exceed the
number of digits, and `natChars` passes `n + 1`. -/
def natCharsF : Nat → Nat → List Char
  | 0, _ => []
  | f + 1, n =>
    if n < 10 then [Char.ofNat (48 + n)]
    else natCharsF f (n / 10) ++ [Char.ofNat (48 + n % 10)]

/-- Decimal digits of a natural number, most significant first
(Python `str` on a non-negative int). -/
def natChars (n : Nat) : List Char := natCharsF (n + 1) n

/-- Python `str` on an int (sign and decimal digits). -/
def intChars (n : Int) : List Char :=
  if n < 0 then '-' :: natChars (-n).toNat else natChars n.toNat

/-- Decimal digit character test. -/
def isDigitCh (c : Char) : Bool := 48 ≤ c.toNat && c.toNat ≤ 57

/-- Value of a digit string, most significant first. -/
def ofDigits (s : Str) : Nat := s.foldl (fun a c => a * 10 + (c.toNat - 48)) 0

/-- Python `int(s)` on the strings `str(n)` produces (model of the cases
that can arise from a serialised integer; anything else raises, i.e.
`none`). -/
def parseIntChars (s : Str) : Option Int :=
  match s with
  | [] => none
  | c :: rest =>
    if c = '-' then
      if rest ≠ [] ∧ rest.all isDigitCh then some (-(ofDigits rest : Int)) else none
    else
      if (c :: rest).all isDigitCh then some (ofDigits (c :: rest) : Int) else none

/-- Worker for `dedupKeep`: `seen` holds the elements already emitted. -/
def dedupAux {α : Type} [DecidableEq α] (seen : List α) : List α → List α
  | [] => []
  | x :: rest =>
    if x ∈ seen then dedupAux seen rest else x :: dedupAux (x :: seen) rest

/-- First-occurrence-preserving deduplication: the order in which the
embedding enumerates a Python set built by successive `add`s. -/
def dedupKeep {α : Type} [DecidableEq α] (l : List α) : List α := dedupAux [] l

/-- Python `sep.join l`. -/
def joinSep (sep : Str) : List Str → Str
  | [] => []
  | [x] => x
  | x :: y :: rest => x ++ sep ++ joinSep sep (y :: rest)

/-! ### Association lists: the model of Python dicts. -/

/-- Python `d.get(k)` / `k in d`. -/
def aget? {β : Type} : List (Str × β) → Str → Option β
  | [], _ => none
  | (k, v) :: rest, key => if k = key then some v else aget? rest key

/-- Python `d[k] = v`: update in place if the key exists (keeping its
position), otherwise append. -/
def aset {β : Type} : List (Str × β) → Str → β → List (Str × β)
  | [], key, v => [(key, v)]
  | (k, w) :: rest, key, v =>
    if k = key then (k, v) :: rest else (k, w) :: aset rest key v

/-- Keys of a dict, in insertion order. -/
def akeys {β : Type} (m : List (Str × β)) : List Str := m.map Prod.fst

end BB

namespace BB

/-! ### `DataProcessor._extract_artists` (src/backend/scripts/data_processor.py). -/

/-- The hardcoded exception list, in source order (the Python source stores
it in a set; the embedding fixes the literal order). -/
def EXCEPTIONS : List Str :=
  [S "Tyler, the Creator",
   S "Tyler, The Creator",
   S "John Scott Trotter & His Orchestra",
   S "Ralph Carmichael Orchestra and Chorus",
   S "AC/DC",
   S "Earth, Wind & Fire"]

/-- The placeholder token `f"__EXC_{idx}__"`. -/
def exc_token (idx : Nat) : Str := S "__EXC_" ++ natChars idx ++ S "__"

/-- The splitting delimiters, in source order. -/
def DELIMS : List Str :=
  [S ",", S "&", S "/", S " x ", S " with ", S " Featuring "]

/-- Replace each exception occurring in `s` by its unique token, recording
the token map (an entry is added only when `re.subn` reported at least one
replacement). -/
def tokenize_exceptions (s : Str) : Str × List (Str × Str) :=
  (List.zip (List.range EXCEPTIONS.length) EXCEPTIONS).foldl
    (fun acc p =>
      let tok := exc_token p.1
      if occursIn p.2 acc.1 then (replaceAll p.2 tok acc.1, acc.2 ++ [(tok, p.2)])
      else acc)
    (s, [])

/-- `split_artists` inside `DataProcessor._extract_artists`: protect
exceptions, split on the delimiters in sequence, strip, drop empties,
restore tokens, and collect into a set (here: first-occurrence order). -/
def split_artists (s : Str) : List Str :=
  if s = S "N/A" then []
  else
    let s1 := pstrip s
    let tkn := tokenize_exceptions s1
    let parts := DELIMS.foldl
      (fun temp delim => temp.flatMap (fun part => splitSub delim part)) [tkn.1]
    dedupKeep (((parts.map pstrip).filter (fun a => a ≠ [])).map
      (fun a => match aget? tkn.2 a with
        | some exc => exc
        | none => a))

/-- `DataProcessor._extract_artists`: union of the names from the main
field and the featured field. -/
def extract_artists (artist_str featured : Str) : List Str :=
  dedupKeep (split_artists artist_str ++ split_artists featured)

/-! ### `DataProcessor._update_collaborations` and
`DataProcessor._build_relationship_dicts`. -/

/-- Nested collaboration dict: artist → (collaborator → weight). -/
abbrev Collabs := List (Str × List (Str × Nat))

/-- Song index: serialised song key → artist list. -/
abbrev Songs := List (Str × List Str)

/-- `DataProcessor._update_collaborations`: for every ordered pair of
distinct artists in the set, increment `collabs[artist][other]`
(creating entries as needed). -/
def update_collaborations (collabs : Collabs) (artists : List Str) : Collabs :=
  artists.foldl
    (fun c artist =>
      let c1 := match aget? c artist with
        | some _ => c
        | none => aset c artist []
      artists.foldl
        (fun c2 other =>
          if other = artist then c2
          else
            let m := (aget? c2 artist).getD []
            let cur := (aget? m other).getD 0
            aset c2 artist (aset m other (cur + 1)))
        c1)
    collabs

/-- The song key `f"{title}/////{'&&&'.join(sorted(artists))}/////{position}"`. -/
def song_key (title : Str) (artists : List Str) (position : Str) : Str :=
  title ++ S "/////" ++
    joinSep (S "&&&") (List.insertionSort (fun a b => lexLE a b = true) artists) ++
    S "/////" ++ position

/-- One row step of `DataProcessor._build_relationship_dicts`. -/
def build_row_step (acc : Collabs × Songs) (row : List Str) : Collabs × Songs :=
  match row with
  | [position, title, artist_str, featured] =>
    let artists := extract_artists artist_str featured
    if artists = [] then acc
    else (update_collaborations acc.1 artists,
          aset acc.2 (song_key title artists position) artists)
  | _ => acc

/-- `DataProcessor._build_relationship_dicts`, starting from the parsed
CSV rows (header already skipped).  A row with a column count other than
four is skipped; a row whose extracted artist set is empty is skipped. -/
def build_relationship_dicts (rows : List (List Str)) : Collabs × Songs :=
  rows.foldl build_row_step ([], [])

/-- The artist set a row contributes (empty for malformed rows). -/
def row_artists (row : List Str) : List Str :=
  match row with
  | [_, _, artist_str, featured] => extract_artists artist_str featured
  | _ => []

/-- Number of input rows whose extracted artist set contains both `a` and
`b` (counted with multiplicity, one per row). -/
def rows_both (rows : List (List Str)) (a b : Str) : Nat :=
  rows.countP (fun r => decide (a ∈ row_artists r ∧ b ∈ row_artists r))

/-- Second-level lookup `adjacency[a][b]` (with a missing top-level key
read as an empty inner dict, which has the same observable entries). -/
def aget2 (c : Collabs) (a b : Str) : Option Nat :=
  aget? ((aget? c a).getD []) b

end BB

namespace BB

/-! ### Association-list and dedup lemmas. -/

theorem aget?_aset_self {β : Type} (m : List (Str × β)) (k : Str) (v : β) :
    aget? (aset m k v) k = some v := by
  induction m with
  | nil => simp [aset, aget?]
  | cons p rest ih =>
    by_cases h : p.1 = k
    · simp [aset, aget?, h]
    · simp [aset, aget?, h, ih]

theorem aget?_aset_ne {β : Type} (m : List (Str × β)) (k : Str) (v : β)
    (k' : Str) (h : k ≠ k') : aget? (aset m k v) k' = aget? m k' := by
  induction m with
  | nil => simp [aset, aget?, h]
  | cons p rest ih =>
    by_cases hp : p.1 = k
    · simp [aset, aget?, hp, h]
    · simp only [aset, if_neg hp, aget?]
      by_cases hp' : p.1 = k'
      · simp [hp']
      · simp [hp', ih]

theorem mem_dedupAux {α : Type} [DecidableEq α] (x : α) (seen l : List α) :
    x ∈ dedupAux seen l ↔ x ∈ l ∧ x ∉ seen := by
  induction l generalizing seen with
  | nil => simp [dedupAux]
  | cons y rest ih =>
    by_cases h : y ∈ seen
    · simp only [dedupAux, if_pos h, ih]
      constructor
      · rintro ⟨hx, hns⟩; exact ⟨List.mem_cons_of_mem _ hx, hns⟩
      · rintro ⟨hx, hns⟩
        rcases List.mem_cons.mp hx with rfl | hx
        · exact absurd h hns
        · exact ⟨hx, hns⟩
    · simp only [dedupAux, if_neg h, List.mem_cons, ih]
      constructor
      · rintro (rfl | ⟨hx, hns⟩)
        · exact ⟨Or.inl rfl, h⟩
        · exact ⟨Or.inr hx, fun hc => hns (Or.inr hc)⟩
      · rintro ⟨rfl | hx, hns⟩
        · exact Or.inl rfl
        · by_cases hxy : x = y
          · exact Or.inl hxy
          · exact Or.inr ⟨hx, fun hc => hc.elim hxy hns⟩

theorem nodup_dedupAux {α : Type} [DecidableEq α] (seen l : List α) :
    (dedupAux seen l).Nodup := by
  induction l generalizing seen with
  | nil => simp [dedupAux]
  | cons y rest ih =>
    by_cases h : y ∈ seen
    · simpa [dedupAux, if_pos h] using ih seen
    · simp only [dedupAux, if_neg h]
      refine List.nodup_cons.mpr ⟨?_, ih (y :: seen)⟩
      intro hc
      exact ((mem_dedupAux y (y :: seen) rest).mp hc).2 (List.mem_cons_self _ _)

theorem dedupKeep_nodup {α : Type} [DecidableEq α] (l : List α) :
    (dedupKeep l).Nodup :=
  nodup_dedupAux [] l

theorem mem_dedupKeep {α : Type} [DecidableEq α] (x : α) (l : List α) :
    x ∈ dedupKeep l ↔ x ∈ l := by
  simp [dedupKeep, mem_dedupAux]

theorem extract_artists_nodup (a f : Str) : (extract_artists a f).Nodup :=
  dedupKeep_nodup _

/-! ### Characterisation of `update_collaborations` on a single edge. -/

/-- The increment of an optional counter (missing entries start at 0,
Python `collabs[artist][other] = 0` followed by `+= 1`). -/
def optIncr : Option Nat → Option Nat
  | none => some 1
  | some n => some (n + 1)

/-- Effect of the inner loop of `_update_collaborations` (over `others`,
for a fixed `artist`) on the `artist` row. -/
def inner_step (artist : Str) (c2 : Collabs) (other : Str) : Collabs :=
  if other = artist then c2
  else
    let m := (aget? c2 artist).getD []
    let cur := (aget? m other).getD 0
    aset c2 artist (aset m other (cur + 1))

theorem update_collaborations_eq (c : Collabs) (artists : List Str) :
    update_collaborations c artists =
      artists.foldl
        (fun c1 artist =>
          artists.foldl (inner_step artist)
            (match aget? c1 artist with
             | some _ => c1
             | none => aset c1 artist []))
        c := rfl

theorem aget2_inner_step_ne (artist : Str) (c2 : Collabs) (other : Str)
    (x y : Str) (hx : x ≠ artist) :
    aget2 (inner_step artist c2 other) x y = aget2 c2 x y := by
  unfold inner_step
  by_cases h : other = artist
  · simp [h]
  · simp only [if_neg h, aget2]
    rw [aget?_aset_ne _ _ _ _ (fun hc => hx hc.symm)]

theorem aget2_inner_fold_ne (artist : Str) (others : List Str) (c2 : Collabs)
    (x y : Str) (hx : x ≠ artist) :
    aget2 (others.foldl (inner_step artist) c2) x y = aget2 c2 x y := by
  induction others generalizing c2 with
  | nil => rfl
  | cons o os ih => rw [List.foldl_cons, ih, aget2_inner_step_ne _ _ _ _ _ hx]

theorem aget2_inner_fold_self (artist : Str) (others : List Str) (c2 : Collabs)
    (y : Str) (hnd : others.Nodup) :
    aget2 (others.foldl (inner_step artist) c2) artist y =
      if y ≠ artist ∧ y ∈ others then optIncr (aget2 c2 artist y)
      else aget2 c2 artist y := by
  induction others generalizing c2 with
  | nil => simp
  | cons o os ih =>
    have hnd' : os.Nodup := (List.nodup_cons.mp hnd).2
    have hono : o ∉ os := (List.nodup_cons.mp hnd).1
    rw [List.foldl_cons, ih _ hnd']
    by_cases ho : o = artist
    · -- the `other == artist` iteration is a no-op
      subst ho
      have hins : inner_step o c2 o = c2 := by simp [inner_step]
      rw [hins]
      by_cases hy : y ≠ o ∧ y ∈ os
      · have h2 : y ≠ o ∧ y ∈ o :: os := ⟨hy.1, List.mem_cons_of_mem _ hy.2⟩
        rw [if_pos hy, if_pos h2]
      · have h2 : ¬(y ≠ o ∧ y ∈ o :: os) := by
          rintro ⟨hy1, hy2⟩
          rcases List.mem_cons.mp hy2 with h' | h'
          · exact hy1 h'
          · exact hy ⟨hy1, h'⟩
        rw [if_neg hy, if_neg h2]
    · -- a real increment of `collabs[artist][o]`
      have hstep : ∀ z, aget2 (inner_step artist c2 o) artist z =
          if z = o then optIncr (aget2 c2 artist o) else aget2 c2 artist z := by
        intro z
        unfold inner_step
        simp only [if_neg ho, aget2, aget?_aset_self]
        by_cases hz : z = o
        · subst hz
          simp only [Option.getD_some, aget?_aset_self]
          cases hmo : aget? ((aget? c2 artist).getD []) z <;> simp [optIncr, hmo]
        · simp only [Option.getD_some]
          rw [aget?_aset_ne _ _ _ _ (fun hc => hz hc.symm), if_neg hz]
      by_cases hy : y = o
      · have h1 : ¬(y ≠ artist ∧ y ∈ os) := fun hc => hono (hy ▸ hc.2)
        have h2 : y ≠ artist ∧ y ∈ o :: os :=
          ⟨fun hc => ho (hy.symm.trans hc), by rw [hy]; exact List.mem_cons_self _ _⟩
        rw [if_neg h1, hstep y, if_pos hy, if_pos h2, hy]
      · rw [hstep y, if_neg hy]
        by_cases hos : y ≠ artist ∧ y ∈ os
        · have h2 : y ≠ artist ∧ y ∈ o :: os := ⟨hos.1, List.mem_cons_of_mem _ hos.2⟩
          rw [if_pos hos, if_pos h2]
        · have h2 : ¬(y ≠ artist ∧ y ∈ o :: os) := by
            rintro ⟨h1, h2⟩
            rcases List.mem_cons.mp h2 with h' | h'
            · exact hy h'
            · exact hos ⟨h1, h'⟩
          rw [if_neg hos, if_neg h2]

theorem aget2_ensure (c : Collabs) (artist x y : Str) :
    aget2 (match aget? c artist with
           | some _ => c
           | none => aset c artist []) x y = aget2 c x y := by
  cases hm : aget? c artist with
  | some m => rfl
  | none =>
    by_cases hx : x = artist
    · subst hx
      simp [aget2, aget?_aset_self, hm, aget?]
    · simp only [aget2]
      rw [aget?_aset_ne _ _ _ _ (fun hc => hx hc.symm)]

theorem aget2_update_collaborations (c : Collabs) (artists : List Str)
    (a b : Str) (hab : a ≠ b) (hnd : artists.Nodup) :
    aget2 (update_collaborations c artists) a b =
      if a ∈ artists ∧ b ∈ artists then optIncr (aget2 c a b)
      else aget2 c a b := by
  rw [update_collaborations_eq]
  -- generalise over the prefix of the outer fold
  suffices h : ∀ (sub : List Str) (c0 : Collabs), sub.Nodup → sub ⊆ artists →
      aget2 (sub.foldl
        (fun c1 artist =>
          artists.foldl (inner_step artist)
            (match aget? c1 artist with
             | some _ => c1
             | none => aset c1 artist []))
        c0) a b =
      if a ∈ sub ∧ b ∈ artists then optIncr (aget2 c0 a b) else aget2 c0 a b by
    exact h artists c hnd (fun _ hx => hx)
  intro sub
  induction sub with
  | nil => intro c0 _ _; simp
  | cons artist rest ih =>
    intro c0 hnd0 hsub0
    have hndr : rest.Nodup := (List.nodup_cons.mp hnd0).2
    have hanr : artist ∉ rest := (List.nodup_cons.mp hnd0).1
    have hsubr : rest ⊆ artists := fun _ hx => hsub0 (List.mem_cons_of_mem _ hx)
    rw [List.foldl_cons, ih _ hndr hsubr]
    by_cases ha : a = artist
    · subst ha
      have hnar : ¬(a ∈ rest ∧ b ∈ artists) := fun hc => hanr hc.1
      have h1 := aget2_inner_fold_self a artists
        (match aget? c0 a with
         | some _ => c0
         | none => aset c0 a []) b hnd
      rw [if_neg hnar, h1, aget2_ensure]
      by_cases hb : b ∈ artists
      · have h2 : b ≠ a ∧ b ∈ artists := ⟨fun hc => hab hc.symm, hb⟩
        have h3 : a ∈ a :: rest ∧ b ∈ artists := ⟨List.mem_cons_self _ _, hb⟩
        rw [if_pos h2, if_pos h3]
      · have h2 : ¬(b ≠ a ∧ b ∈ artists) := fun hc => hb hc.2
        have h3 : ¬(a ∈ a :: rest ∧ b ∈ artists) := fun hc => hb hc.2
        rw [if_neg h2, if_neg h3]
    · have hne : aget2
          (artists.foldl (inner_step artist)
            (match aget? c0 artist with
             | some _ => c0
             | none => aset c0 artist [])) a b = aget2 c0 a b :=
        (aget2_inner_fold_ne artist artists _ a b ha).trans
          (aget2_ensure c0 artist a b)
      rw [hne]
      by_cases hr : a ∈ rest ∧ b ∈ artists
      · have h3 : a ∈ artist :: rest ∧ b ∈ artists :=
          ⟨List.mem_cons_of_mem _ hr.1, hr.2⟩
        rw [if_pos hr, if_pos h3]
      · have h3 : ¬(a ∈ artist :: rest ∧ b ∈ artists) := by
          rintro ⟨hm1, hm2⟩
          rcases List.mem_cons.mp hm1 with h' | h'
          · exact ha h'
          · exact hr ⟨h', hm2⟩
        rw [if_neg hr, if_neg h3]

end BB

namespace BB

/-! ### Characterisation of the built adjacency map. -/

/-- Add `n` to an optional counter (missing entries spring into existence
at their first increment). -/
def addN : Nat → Option Nat → Option Nat
  | 0, o => o
  | n + 1, o => addN n (optIncr o)

theorem addN_some (n m : Nat) : addN n (some m) = some (m + n) := by
  induction n generalizing m with
  | zero => rfl
  | succ k ih =>
    show addN k (optIncr (some m)) = some (m + (k + 1))
    rw [show optIncr (some m) = some (m + 1) from rfl, ih]
    congr 1
    omega

theorem addN_none (n : Nat) :
    addN n none = if n = 0 then none else some n := by
  cases n with
  | zero => rfl
  | succ k =>
    show addN k (optIncr none) = _
    rw [show optIncr none = some 1 from rfl, addN_some]
    simp [Nat.add_comm]

theorem aget2_build_fold (rows : List (List Str)) (acc : Collabs × Songs)
    (a b : Str) (hab : a ≠ b) :
    aget2 (rows.foldl build_row_step acc).1 a b =
      addN (rows_both rows a b) (aget2 acc.1 a b) := by
  induction rows generalizing acc with
  | nil => rfl
  | cons r rs ih =>
    rw [List.foldl_cons, ih]
    have hcount : rows_both (r :: rs) a b =
        rows_both rs a b + if a ∈ row_artists r ∧ b ∈ row_artists r then 1 else 0 := by
      simp only [rows_both, List.countP_cons]
      by_cases h : a ∈ row_artists r ∧ b ∈ row_artists r <;> simp [h]
    rw [hcount]
    have hstep : aget2 (build_row_step acc r).1 a b =
        if a ∈ row_artists r ∧ b ∈ row_artists r then optIncr (aget2 acc.1 a b)
        else aget2 acc.1 a b := by
      match r with
      | [position, title, artist_str, featured] =>
        show aget2 (build_row_step acc [position, title, artist_str, featured]).1 a b = _
        unfold build_row_step
        simp only
        by_cases hempty : extract_artists artist_str featured = []
        · rw [if_pos hempty]
          have : ¬(a ∈ row_artists [position, title, artist_str, featured] ∧
              b ∈ row_artists [position, title, artist_str, featured]) := by
            rintro ⟨h1, _⟩
            rw [row_artists, hempty] at h1
            exact List.not_mem_nil a h1
          rw [if_neg this]
        · rw [if_neg hempty]
          exact aget2_update_collaborations acc.1 _ a b hab (extract_artists_nodup _ _)
      | [] => simp [build_row_step, row_artists]
      | [x1] => simp [build_row_step, row_artists]
      | [x1, x2] => simp [build_row_step, row_artists]
      | [x1, x2, x3] => simp [build_row_step, row_artists]
      | x1 :: x2 :: x3 :: x4 :: x5 :: rest => simp [build_row_step, row_artists]
    rw [hstep]
    by_cases h : a ∈ row_artists r ∧ b ∈ row_artists r
    · rw [if_pos h, if_pos h]
      show _ = addN (rows_both rs a b + 1) (aget2 acc.1 a b)
      rfl
    · rw [if_neg h, if_neg h, Nat.add_zero]

/-- Master characterisation: the stored weight for the ordered pair
`(a, b)`, `a ≠ b`, is exactly the number of contributing rows whose
artist set contains both. -/
theorem collab_weight_char (rows : List (List Str)) (a b : Str) (hab : a ≠ b) :
    aget2 (build_relationship_dicts rows).1 a b =
      if rows_both rows a b = 0 then none else some (rows_both rows a b) := by
  rw [build_relationship_dicts, aget2_build_fold rows ([], []) a b hab]
  show addN (rows_both rows a b) none = _
  exact addN_none _

theorem rows_both_symm (rows : List (List Str)) (a b : Str) :
    rows_both rows a b = rows_both rows b a := by
  induction rows with
  | nil => rfl
  | cons r rs ih =>
    simp only [rows_both, List.countP_cons] at *
    rw [ih, decide_eq_decide.mpr (@and_comm (a ∈ row_artists r) (b ∈ row_artists r))]

end BB

namespace BB

/-! ### Claims C2 and C3. -/

/-- A concrete input: the same song row appears twice. -/
def two_dup_rows : List (List Str) :=
  [[S "1", S "S", S "A, B", S "N/A"], [S "1", S "S", S "A, B", S "N/A"]]

/-- C2, counterexample: with the same song on two input rows, the stored
weight for the pair (A, B) is 2, yet there is exactly one distinct song
(one song-index entry) on which both appear, so the weight is not the
number of distinct songs. -/
theorem C2_counterexample :
    aget2 (build_relationship_dicts two_dup_rows).1 (S "A") (S "B") = some 2 ∧
    ((build_relationship_dicts two_dup_rows).2.filter
      (fun e => decide (S "A" ∈ e.2 ∧ S "B" ∈ e.2))).length = 1 := by
  constructor
  · decide
  · decide

/-- C2 (amended): the collaboration weight stored for an unordered pair of
distinct artists `a ≠ b` equals the number of input rows (counted with
multiplicity, one increment per row) whose extracted artist set contains
both — duplicate rows for the same song are counted once per row, not
once per song; the entry is absent exactly when that count is zero. -/
theorem C2_collab_weight_counts_rows (rows : List (List Str)) (a b : Str)
    (hab : a ≠ b) :
    aget2 (build_relationship_dicts rows).1 a b =
      if rows_both rows a b = 0 then none else some (rows_both rows a b) :=
  collab_weight_char rows a b hab

/-- Witness for C2 (amended) at the duplicated-row input. -/
theorem C2_collab_weight_counts_rows_witness :
    aget2 (build_relationship_dicts two_dup_rows).1 (S "A") (S "B") =
      if rows_both two_dup_rows (S "A") (S "B") = 0 then none
      else some (rows_both two_dup_rows (S "A") (S "B")) :=
  C2_collab_weight_counts_rows two_dup_rows (S "A") (S "B") (by decide)

/-- C3: for every input row sequence the built adjacency map is
symmetric — `a` has an inner entry for `b` iff `b` has one for `a`, and
the two weights agree (`adjacency[a][b] == adjacency[b][a]`). -/
theorem C3_adjacency_symmetric (rows : List (List Str)) (a b : Str) :
    aget2 (build_relationship_dicts rows).1 a b =
      aget2 (build_relationship_dicts rows).1 b a := by
  by_cases hab : a = b
  · rw [hab]
  · rw [collab_weight_char rows a b hab,
      collab_weight_char rows b a (fun hc => hab hc.symm),
      rows_both_symm]

end BB

namespace BB

/-! ### `DataAccessLayer` (src/backend/data_access.py).

The layer loads both JSON structures; the operations modelled here read
only `songs_to_artists` (the `data` adjacency is loaded but not consulted
by any of them), so the state is the song index. -/

structure DAL where
  songs_to_artists : List (Str × List Str)

/-- A `{count, degree}` record. -/
abbrev Conn := Nat × Nat

/-- The `for other_artist in artists:` body of the raw tally: increment
`connections[other]` for every co-appearing artist other than `a`. -/
def tally_other (a : Str) (conns2 : List (Str × Nat)) (other : Str) :
    List (Str × Nat) :=
  if other ≠ a then aset conns2 other ((aget? conns2 other).getD 0 + 1)
  else conns2

/-- The `for song, artists in self.songs_to_artists.items():` body of the
raw tally: process one song if it contains `a`. -/
def tally_song (a : Str) (conns : List (Str × Nat)) (e : Str × List Str) :
    List (Str × Nat) :=
  if a ∈ e.2 then e.2.foldl (tally_other a) conns else conns

/-- `DataAccessLayer._get_direct_collaborators_raw`: strip the name, scan
every song containing it, and tally co-appearances. -/
def get_direct_collaborators_raw (dal : DAL) (artist_name : Str) :
    List (Str × Nat) :=
  dal.songs_to_artists.foldl (tally_song (pstrip artist_name)) []

/-- `DataAccessLayer._get_direct_connections`: the same tally (the Python
body repeats the raw scan verbatim), wrapped as `{count, degree: 1}`
records in tally order. -/
def get_direct_connections (dal : DAL) (artist_name : Str) :
    List (Str × Conn) :=
  (get_direct_collaborators_raw dal artist_name).map (fun p => (p.1, (p.2, 1)))

/-- Number of distinct artist names occurring in the song index; the BFS
fuel bound (the loop dequeues at most one entry per artist, plus the
origin). -/
def all_artists_count (dal : DAL) : Nat :=
  (dedupKeep (dal.songs_to_artists.flatMap (fun e => e.2))).length

/-- The `for collab, count in direct_collabs.items():` body of
`DataAccessLayer._get_connections_bfs`: if unvisited (and, redundantly,
unrecorded), record the connection, enqueue, and mark visited.  The state
is (queue, visited, connections). -/
def bfs_fold_step (deg : Nat)
    (st : List (Str × Nat) × List Str × List (Str × Conn)) (kv : Str × Nat) :
    List (Str × Nat) × List Str × List (Str × Conn) :=
  if kv.1 ∈ st.2.1 then st
  else if (aget? st.2.2 kv.1).isSome then st
  else (st.1 ++ [(kv.1, deg + 1)], st.2.1 ++ [kv.1],
        st.2.2 ++ [(kv.1, (kv.2, deg + 1))])

/-- The body of the `while queue:` loop of
`DataAccessLayer._get_connections_bfs`, with explicit fuel.  The fuel is
only a structural-termination device: `get_connections_bfs` passes
`all_artists_count + 1`, which is proved sufficient below, since each
dequeued entry was enqueued together with a fresh member of `visited`. -/
def bfsLoopF (dal : DAL) (maxDegree : Nat) :
    Nat → List (Str × Nat) → List Str → List (Str × Conn) → List (Str × Conn)
  | 0, _, _, conns => conns
  | _ + 1, [], _, conns => conns
  | f + 1, (cur, deg) :: rest, visited, conns =>
    if maxDegree ≤ deg then bfsLoopF dal maxDegree f rest visited conns
    else
      let dc := get_direct_collaborators_raw dal cur
      let st := dc.foldl (bfs_fold_step deg) (rest, visited, conns)
      bfsLoopF dal maxDegree f st.1 st.2.1 st.2.2

/-- `DataAccessLayer._get_connections_bfs`. -/
def get_connections_bfs (dal : DAL) (artist_name : Str) (max_degree : Nat) :
    List (Str × Conn) :=
  let a := pstrip artist_name
  bfsLoopF dal max_degree (all_artists_count dal + 1) [(a, 0)] [a] []

/-- `DataAccessLayer.get_artist_connections`: degree 1 short-circuits to
the direct scan, higher degrees run the BFS. -/
def get_artist_connections (dal : DAL) (artist_name : Str) (degree : Nat) :
    List (Str × Conn) :=
  if degree = 1 then get_direct_connections dal artist_name
  else get_connections_bfs dal artist_name max_degree
where max_degree := degree

/-- `DataAccessLayer.artist_exists`: true iff the name appears in some
song's artist list.  (Note: no strip.) -/
def artist_exists (dal : DAL) (artist_name : Str) : Bool :=
  dal.songs_to_artists.any (fun e => decide (artist_name ∈ e.2))

/-- The BFS of `DataAccessLayer.get_artist_connections_graph`, which
tracks only the visited set (the Python code keeps `visited` and
`all_artists` in lockstep: both start as `{artist}` and receive every
discovered collaborator together). -/
def graphLoopF (dal : DAL) (degree : Nat) :
    Nat → List (Str × Nat) → List Str → List Str
  | 0, _, visited => visited
  | _ + 1, [], visited => visited
  | f + 1, (cur, deg) :: rest, visited =>
    if deg < degree then
      let dc := get_direct_collaborators_raw dal cur
      let st := dc.foldl
        (fun (st : List (Str × Nat) × List Str) kv =>
          if kv.1 ∈ st.2 then st
          else (st.1 ++ [(kv.1, deg + 1)], st.2 ++ [kv.1]))
        (rest, visited)
      graphLoopF dal degree f st.1 st.2
    else graphLoopF dal degree f rest visited

/-- A node record `{id, name, degree}` (id and name are the same string). -/
abbrev GNode := Str × Nat

/-- An edge record `{source, target, weight, name}`. -/
abbrev GEdge := Str × Str × Nat × Str

/-- `DataAccessLayer.get_artist_connections_graph`: BFS-collect the
vertex set, then emit one node per artist (degree = direct-collaborator
count) and one edge per canonical sorted pair. -/
def get_artist_connections_graph (dal : DAL) (artist_name : Str)
    (degree : Nat) : List GNode × List GEdge :=
  let a := pstrip artist_name
  let all := graphLoopF dal degree (all_artists_count dal + 1) [(a, 0)] [a]
  let nodes := all.map
    (fun artist => (artist, (get_direct_collaborators_raw dal artist).length))
  let edges := all.foldl
    (fun (st : List (Str × Str) × List GEdge) artist =>
      (get_direct_collaborators_raw dal artist).foldl
        (fun st2 kv =>
          if kv.1 ∈ all then
            let pr := if lexLE artist kv.1 then (artist, kv.1) else (kv.1, artist)
            if pr ∈ st2.1 then st2
            else (st2.1 ++ [pr],
                  st2.2 ++ [(pr.1, pr.2, kv.2, pr.1 ++ S " - " ++ pr.2)])
          else st2)
        st)
    ([], [])
  (nodes, edges.2)

/-- `DataAccessLayer.search_artists` relevance tier: 0 exact
(case-insensitive), 1 starts-with, 2 contains. -/
def sort_key_tier (ql artist : Str) : Nat :=
  if lowerStr artist = ql then 0
  else if leadsWith ql (lowerStr artist) then 1
  else 2

/-- Python tuple comparison `(tier a, a) <= (tier b, b)`, the order the
`results.sort(key=sort_key)` call sorts by. -/
def sort_key_leB (ql a b : Str) : Bool :=
  sort_key_tier ql a < sort_key_tier ql b ||
    (sort_key_tier ql a = sort_key_tier ql b && lexLE a b)

/-- `DataAccessLayer.search_artists`: collect the case-insensitive
substring matches over all artists in the song index (a set, enumerated
here in first-occurrence order), sort by relevance, cap at 20. -/
def search_artists (dal : DAL) (query : Str) : List Str :=
  if pstrip query = [] then []
  else
    let ql := lowerStr query
    let matched := dedupKeep
      ((dal.songs_to_artists.flatMap (fun e => e.2)).filter
        (fun artist => occursIn ql (lowerStr artist)))
    (List.insertionSort (fun a b => sort_key_leB ql a b = true) matched).take 20

end BB

namespace BB

/-! ### Strip idempotence, and claim C7. -/

theorem dropWhile_self (p : Char → Bool) (l : Str) :
    (l.dropWhile p).dropWhile p = l.dropWhile p := by
  induction l with
  | nil => rfl
  | cons x rest ih =>
    by_cases h : p x = true
    · simp [List.dropWhile_cons, h, ih]
    · simp [List.dropWhile_cons, h]

theorem exists_dropWhile_decomp (p : Char → Bool) (l : Str) :
    ∃ t, l = t ++ l.dropWhile p := by
  induction l with
  | nil => exact ⟨[], rfl⟩
  | cons x rest ih =>
    by_cases h : p x = true
    · obtain ⟨t, ht⟩ := ih
      exact ⟨x :: t, by simp [List.dropWhile_cons, h]; exact ht⟩
    · exact ⟨[], by simp [List.dropWhile_cons, h]⟩

theorem dropWhile_length_le (p : Char → Bool) (l : Str) :
    (l.dropWhile p).length ≤ l.length := by
  induction l with
  | nil => simp
  | cons x rest ih =>
    by_cases h : p x = true
    · rw [List.dropWhile_cons, if_pos h]
      exact Nat.le_succ_of_le ih
    · rw [List.dropWhile_cons, if_neg h]

theorem dropWhile_eq_self_of_decomp (p : Char → Bool) (l r : Str)
    (h : (l ++ r).dropWhile p = l ++ r) : l.dropWhile p = l := by
  cases l with
  | nil => rfl
  | cons x t =>
    by_cases hx : p x = true
    · exfalso
      rw [List.cons_append, List.dropWhile_cons, if_pos hx] at h
      have hlen := congrArg List.length h
      have := dropWhile_length_le p (t ++ r)
      simp at hlen this
      omega
    · rw [List.dropWhile_cons, if_neg hx]

theorem pstrip_idem (s : Str) : pstrip (pstrip s) = pstrip s := by
  unfold pstrip
  set p := isSpaceChar
  set u := (s.dropWhile p).reverse.dropWhile p with hu
  -- `u.reverse` has no leading `p`-run: it is an initial part of
  -- `s.dropWhile p`, which has none.
  have hnl : u.reverse.dropWhile p = u.reverse := by
    obtain ⟨t, ht⟩ := exists_dropWhile_decomp p (s.dropWhile p).reverse
    have hdecomp : s.dropWhile p = u.reverse ++ t.reverse := by
      rw [hu]
      calc s.dropWhile p = ((s.dropWhile p).reverse).reverse := by
              rw [List.reverse_reverse]
        _ = (t ++ (s.dropWhile p).reverse.dropWhile p).reverse := by rw [← ht]
        _ = ((s.dropWhile p).reverse.dropWhile p).reverse ++ t.reverse := by
              rw [List.reverse_append]
    have hself : (u.reverse ++ t.reverse).dropWhile p = u.reverse ++ t.reverse := by
      rw [← hdecomp]; exact dropWhile_self p s
    exact dropWhile_eq_self_of_decomp p _ _ hself
  rw [hnl, List.reverse_reverse, dropWhile_self]

/-- A single-song state used as concrete input for several witnesses. -/
def one_song_dal : DAL := ⟨[(S "k", [S "A"])]⟩

/-- C7, counterexample: `artist_exists` does not strip its argument, so
a padded name misses while the trimmed name hits. -/
theorem C7_counterexample :
    artist_exists one_song_dal (S " A") = false ∧
    artist_exists one_song_dal (pstrip (S " A")) = true := by
  constructor
  · decide
  · decide

/-- C7 (amended): the direct-neighbour scan, the BFS neighbour query and
the subgraph extraction all strip their artist-name argument before
comparison (their result on any name equals their result on the trimmed
name); the existence check `artist_exists` does not strip. -/
theorem C7_lookups_strip (dal : DAL) (x : Str) (d : Nat) :
    get_direct_connections dal x = get_direct_connections dal (pstrip x) ∧
    get_connections_bfs dal x d = get_connections_bfs dal (pstrip x) d ∧
    get_artist_connections_graph dal x d =
      get_artist_connections_graph dal (pstrip x) d := by
  refine ⟨?_, ?_, ?_⟩
  · unfold get_direct_connections get_direct_collaborators_raw
    rw [pstrip_idem]
  · unfold get_connections_bfs
    rw [pstrip_idem]
  · unfold get_artist_connections_graph
    rw [pstrip_idem]

end BB

namespace BB

/-! ### Key-set facts for the raw collaborator tally. -/

theorem aget?_append_none {β : Type} (m1 m2 : List (Str × β)) (k : Str)
    (h : aget? m1 k = none) : aget? (m1 ++ m2) k = aget? m2 k := by
  induction m1 with
  | nil => simp
  | cons p rest ih =>
    by_cases hp : p.1 = k
    · rw [aget?, if_pos hp] at h
      exact absurd h (by simp)
    · rw [aget?, if_neg hp] at h
      rw [List.cons_append, aget?, if_neg hp]
      exact ih h

theorem aget?_append_some {β : Type} (m1 m2 : List (Str × β)) (k : Str)
    (v : β) (h : aget? m1 k = some v) : aget? (m1 ++ m2) k = some v := by
  induction m1 with
  | nil => simp [aget?] at h
  | cons p rest ih =>
    by_cases hp : p.1 = k
    · rw [aget?, if_pos hp] at h
      rw [List.cons_append, aget?, if_pos hp]
      exact h
    · rw [aget?, if_neg hp] at h
      rw [List.cons_append, aget?, if_neg hp]
      exact ih h

theorem mem_akeys_cons {β : Type} (p : Str × β) (m : List (Str × β)) (x : Str) :
    x ∈ akeys (p :: m) ↔ x = p.1 ∨ x ∈ akeys m := by
  rw [akeys, List.map_cons]
  exact List.mem_cons

theorem not_mem_akeys_nil {β : Type} (x : Str) : x ∉ akeys ([] : List (Str × β)) := by
  rw [akeys, List.map_nil]
  exact List.not_mem_nil x

theorem aget?_none_of_not_mem {β : Type} (m : List (Str × β)) (k : Str)
    (h : k ∉ akeys m) : aget? m k = none := by
  induction m with
  | nil => rfl
  | cons p rest ih =>
    have h1 : p.1 ≠ k :=
      fun hc => h ((mem_akeys_cons p rest k).mpr (Or.inl hc.symm))
    have h2 : k ∉ akeys rest :=
      fun hc => h ((mem_akeys_cons p rest k).mpr (Or.inr hc))
    rw [aget?, if_neg h1]
    exact ih h2

theorem mem_aget?_of_mem_akeys {β : Type} (m : List (Str × β)) (k : Str)
    (h : k ∈ akeys m) : (aget? m k).isSome := by
  induction m with
  | nil => exact absurd h (not_mem_akeys_nil k)
  | cons p rest ih =>
    by_cases hp : p.1 = k
    · rw [aget?, if_pos hp]
      rfl
    · rw [aget?, if_neg hp]
      rcases (mem_akeys_cons p rest k).mp h with h' | h'
      · exact absurd h'.symm hp
      · exact ih h'

theorem mem_akeys_aset {β : Type} (m : List (Str × β)) (k : Str) (v : β)
    (x : Str) : x ∈ akeys (aset m k v) ↔ x ∈ akeys m ∨ x = k := by
  induction m with
  | nil =>
    rw [aset, mem_akeys_cons]
    constructor
    · rintro (rfl | hx)
      · exact Or.inr rfl
      · exact absurd hx (not_mem_akeys_nil x)
    · rintro (hx | rfl)
      · exact absurd hx (not_mem_akeys_nil x)
      · exact Or.inl rfl
  | cons p rest ih =>
    by_cases h : p.1 = k
    · rw [aset, if_pos h, mem_akeys_cons, mem_akeys_cons]
      constructor
      · rintro (rfl | hx)
        · exact Or.inl (Or.inl rfl)
        · exact Or.inl (Or.inr hx)
      · rintro ((rfl | hx) | rfl)
        · exact Or.inl rfl
        · exact Or.inr hx
        · exact Or.inl (h ▸ rfl)
    · rw [aset, if_neg h, mem_akeys_cons, mem_akeys_cons, ih]
      tauto

theorem nodup_akeys_aset {β : Type} (m : List (Str × β)) (k : Str) (v : β)
    (h : (akeys m).Nodup) : (akeys (aset m k v)).Nodup := by
  induction m with
  | nil =>
    rw [aset, akeys, List.map_cons, List.map_nil]
    exact List.nodup_singleton _
  | cons p rest ih =>
    rw [akeys, List.map_cons, List.nodup_cons] at h
    by_cases hp : p.1 = k
    · rw [aset, if_pos hp, akeys, List.map_cons, List.nodup_cons]
      exact h
    · rw [aset, if_neg hp, akeys, List.map_cons, List.nodup_cons]
      refine ⟨?_, ih h.2⟩
      intro hc
      rcases (mem_akeys_aset rest k v p.1).mp hc with hc' | hc'
      · exact h.1 hc'
      · exact hp hc'

/-- The inner tally loop over one song's artist list: new keys come from
the list and are never the stripped artist. -/
theorem tally_other_fold_keys (a : Str) (names : List Str)
    (conns0 : List (Str × Nat)) :
    ∀ k, k ∈ akeys (names.foldl (tally_other a) conns0) →
      k ∈ akeys conns0 ∨ (k ∈ names ∧ k ≠ a) := by
  induction names generalizing conns0 with
  | nil => intro k hk; exact Or.inl hk
  | cons n rest ih =>
    intro k hk
    rw [List.foldl_cons] at hk
    rcases ih _ k hk with hk' | hk'
    · by_cases hn : n ≠ a
      · rw [tally_other, if_pos hn] at hk'
        rcases (mem_akeys_aset _ _ _ _).mp hk' with h' | h'
        · exact Or.inl h'
        · exact Or.inr ⟨by rw [h']; exact List.mem_cons_self _ _, h' ▸ hn⟩
      · rw [tally_other, if_neg hn] at hk'
        exact Or.inl hk'
    · exact Or.inr ⟨List.mem_cons_of_mem _ hk'.1, hk'.2⟩

theorem tally_other_fold_nodup (a : Str) (names : List Str)
    (conns0 : List (Str × Nat)) (h : (akeys conns0).Nodup) :
    (akeys (names.foldl (tally_other a) conns0)).Nodup := by
  induction names generalizing conns0 with
  | nil => exact h
  | cons n rest ih =>
    rw [List.foldl_cons]
    apply ih
    by_cases hn : n ≠ a
    · rw [tally_other, if_pos hn]; exact nodup_akeys_aset _ _ _ h
    · rw [tally_other, if_neg hn]; exact h

theorem tally_song_fold_keys (a : Str) (l : List (Str × List Str))
    (conns0 : List (Str × Nat)) :
    ∀ k, k ∈ akeys (l.foldl (tally_song a) conns0) →
      k ∈ akeys conns0 ∨ (k ∈ l.flatMap (fun e => e.2) ∧ k ≠ a) := by
  induction l generalizing conns0 with
  | nil => intro k hk; exact Or.inl hk
  | cons e rest ih =>
    intro k hk
    rw [List.foldl_cons] at hk
    rcases ih _ k hk with hk' | hk'
    · rw [tally_song] at hk'
      by_cases he : a ∈ e.2
      · rw [if_pos he] at hk'
        rcases tally_other_fold_keys _ _ _ k hk' with h' | h'
        · exact Or.inl h'
        · refine Or.inr ⟨?_, h'.2⟩
          simp only [List.flatMap_cons, List.mem_append]
          exact Or.inl h'.1
      · rw [if_neg he] at hk'
        exact Or.inl hk'
    · refine Or.inr ⟨?_, hk'.2⟩
      simp only [List.flatMap_cons, List.mem_append]
      exact Or.inr hk'.1

theorem tally_song_fold_nodup (a : Str) (l : List (Str × List Str))
    (conns0 : List (Str × Nat)) (h : (akeys conns0).Nodup) :
    (akeys (l.foldl (tally_song a) conns0)).Nodup := by
  induction l generalizing conns0 with
  | nil => exact h
  | cons e rest ih =>
    rw [List.foldl_cons]
    apply ih
    rw [tally_song]
    by_cases he : a ∈ e.2
    · rw [if_pos he]; exact tally_other_fold_nodup _ _ _ h
    · rw [if_neg he]; exact h

/-- Keys of the raw tally: pairwise distinct, distinct from the stripped
query name, and drawn from the song index's artist lists. -/
theorem raw_keys_spec (dal : DAL) (x : Str) :
    (akeys (get_direct_collaborators_raw dal x)).Nodup ∧
    ∀ k, k ∈ akeys (get_direct_collaborators_raw dal x) →
      k ≠ pstrip x ∧ k ∈ dal.songs_to_artists.flatMap (fun e => e.2) := by
  constructor
  · exact tally_song_fold_nodup _ _ _ (by simp [akeys])
  · intro k hk
    rcases tally_song_fold_keys _ _ _ k hk with h' | h'
    · simp [akeys] at h'
    · exact ⟨h'.2, h'.1⟩

theorem raw_keys_length_le (dal : DAL) (x : Str) :
    (akeys (get_direct_collaborators_raw dal x)).length ≤ all_artists_count dal := by
  obtain ⟨hnd, hspec⟩ := raw_keys_spec dal x
  have hsub : akeys (get_direct_collaborators_raw dal x) ⊆
      dedupKeep (dal.songs_to_artists.flatMap (fun e => e.2)) := by
    intro k hk
    exact (mem_dedupKeep _ _).mpr (hspec k hk).2
  exact (List.subperm_of_subset hnd hsub).length_le

end BB

namespace BB

/-! ### One expansion step of the BFS, and claim C4. -/

/-- Processing one dequeued artist's collaborator dict: exactly the
unvisited keys are appended (in dict order) to the queue, the visited set
and the connection map, all tagged with degree `deg + 1`. -/
theorem bfs_fold_spec (deg : Nat) (dc : List (Str × Nat))
    (q0 : List (Str × Nat)) (v0 : List Str) (c0 : List (Str × Conn))
    (hnd : (dc.map Prod.fst).Nodup)
    (hsub : ∀ k, k ∈ akeys c0 → k ∈ v0) :
    dc.foldl (bfs_fold_step deg) (q0, v0, c0) =
      (q0 ++ (dc.filter (fun kv => decide (kv.1 ∉ v0))).map
          (fun kv => (kv.1, deg + 1)),
       v0 ++ (dc.filter (fun kv => decide (kv.1 ∉ v0))).map Prod.fst,
       c0 ++ (dc.filter (fun kv => decide (kv.1 ∉ v0))).map
          (fun kv => (kv.1, (kv.2, deg + 1)))) := by
  induction dc generalizing q0 v0 c0 with
  | nil => simp
  | cons kv rest ih =>
    have hndr : (rest.map Prod.fst).Nodup := (List.nodup_cons.mp hnd).2
    have hhead : kv.1 ∉ rest.map Prod.fst := (List.nodup_cons.mp hnd).1
    rw [List.foldl_cons]
    by_cases hv : kv.1 ∈ v0
    · have hstep : bfs_fold_step deg (q0, v0, c0) kv = (q0, v0, c0) := by
        rw [bfs_fold_step, if_pos hv]
      rw [hstep, ih q0 v0 c0 hndr hsub,
        List.filter_cons_of_neg (by simpa using hv)]
    · have hc0 : aget? c0 kv.1 = none := by
        apply aget?_none_of_not_mem
        intro hc
        exact hv (hsub _ hc)
      have hstep : bfs_fold_step deg (q0, v0, c0) kv =
          (q0 ++ [(kv.1, deg + 1)], v0 ++ [kv.1],
           c0 ++ [(kv.1, (kv.2, deg + 1))]) := by
        rw [bfs_fold_step, if_neg hv, hc0]
        simp
      rw [hstep, ih _ _ _ hndr ?hsub']
      case hsub' =>
        intro k hk
        rw [akeys, List.map_append] at hk
        rcases List.mem_append.mp hk with hk' | hk'
        · exact List.mem_append.mpr (Or.inl (hsub _ hk'))
        · simp only [List.map_cons, List.map_nil] at hk'
          exact List.mem_append.mpr (Or.inr (by simpa using hk'))
      have hfilter : rest.filter (fun kv2 => decide (kv2.1 ∉ v0 ++ [kv.1])) =
          rest.filter (fun kv2 => decide (kv2.1 ∉ v0)) := by
        apply List.filter_congr
        intro kv2 hkv2
        have hne : kv2.1 ≠ kv.1 := by
          intro hc
          exact hhead (hc ▸ List.mem_map_of_mem Prod.fst hkv2)
        by_cases h2 : kv2.1 ∈ v0
        · simp [h2]
        · simp [h2, hne]
      rw [hfilter, List.filter_cons_of_pos (by simpa using hv)]
      simp [List.append_assoc]

/-- Entries already at or beyond the degree bound are dequeued without
effect; with enough fuel the loop then returns the connections as-is. -/
theorem bfs_drain (dal : DAL) (maxD : Nat) (q : List (Str × Nat)) :
    ∀ (fuel : Nat) (v : List Str) (c : List (Str × Conn)),
      (∀ e ∈ q, maxD ≤ e.2) → q.length ≤ fuel →
      bfsLoopF dal maxD fuel q v c = c := by
  induction q with
  | nil =>
    intro fuel v c _ _
    cases fuel <;> rfl
  | cons e rest ih =>
    intro fuel v c hall hlen
    match fuel, e with
    | f + 1, (cur, deg) =>
      rw [bfsLoopF, if_pos (hall (cur, deg) (List.mem_cons_self _ _))]
      exact ih f v c (fun e' he' => hall e' (List.mem_cons_of_mem _ he'))
        (by simpa using Nat.le_of_succ_le_succ hlen)

/-- C4: the degree-1 short-circuit and the BFS agree — `neighborsWithinDegree(A, 1)`
computed by `_get_connections_bfs` equals `directNeighbors(A)` computed by
`_get_direct_connections`, and `get_artist_connections(A, 1)` routes to the
latter, so both query paths return the same collaborator sets and counts. -/
theorem C4_degree_one_equivalence (dal : DAL) (x : Str) :
    get_connections_bfs dal x 1 = get_direct_connections dal x ∧
    get_artist_connections dal x 1 = get_direct_connections dal x := by
  constructor
  · unfold get_connections_bfs
    simp only
    rw [show all_artists_count dal + 1 = (all_artists_count dal) + 1 from rfl]
    rw [bfsLoopF]
    rw [if_neg (by omega)]
    simp only
    have hraw : get_direct_collaborators_raw dal (pstrip x) =
        get_direct_collaborators_raw dal x := by
      unfold get_direct_collaborators_raw
      rw [pstrip_idem]
    obtain ⟨hnd, hspec⟩ := raw_keys_spec dal x
    have hfold := bfs_fold_spec 0 (get_direct_collaborators_raw dal x)
      [] [pstrip x] [] (by exact hnd) (by intro k hk; simp [akeys] at hk)
    have hfilter : (get_direct_collaborators_raw dal x).filter
        (fun kv => decide (kv.1 ∉ [pstrip x])) =
        get_direct_collaborators_raw dal x := by
      apply List.filter_eq_self.mpr
      intro kv hkv
      have := (hspec kv.1 (List.mem_map_of_mem Prod.fst hkv)).1
      simp [this]
    rw [hfilter] at hfold
    rw [hraw, hfold]
    simp only
    apply bfs_drain
    · intro e he
      simp only [List.nil_append] at he
      obtain ⟨kv, _, rfl⟩ := List.mem_map.mp he
      exact Nat.le_refl 1
    · simp only [List.nil_append, List.length_map]
      calc (get_direct_collaborators_raw dal x).length
          = (akeys (get_direct_collaborators_raw dal x)).length := by
            rw [akeys, List.length_map]
        _ ≤ all_artists_count dal := raw_keys_length_le dal x
  · rfl

end BB

namespace BB

/-! ### `DataProcessor.process_data` and claim C8. -/

/-- The files `process_data` touches: the two output paths and their
`.backup` siblings (content, or `none` when absent). -/
structure FS where
  collab_main : Option Collabs
  collab_backup : Option Collabs
  songs_main : Option Songs
  songs_backup : Option Songs

/-- `DataProcessor._save_with_backup` on the collaborations path: rename
any existing file to its backup, then write the new data. -/
def save_with_backup_collab (fs : FS) (data : Collabs) : FS :=
  match fs.collab_main with
  | some old => { fs with collab_backup := some old, collab_main := some data }
  | none => { fs with collab_main := some data }

/-- `DataProcessor._save_with_backup` on the songs path. -/
def save_with_backup_songs (fs : FS) (data : Songs) : FS :=
  match fs.songs_main with
  | some old => { fs with songs_backup := some old, songs_main := some data }
  | none => { fs with songs_main := some data }

/-- `DataProcessor._validate_data`: raise when either structure is empty
(the symmetry pass only logs warnings and cannot fail). -/
def validate_data (collaborations : Collabs) (songs_to_artists : Songs) :
    Except Str Unit :=
  if collaborations.isEmpty then Except.error (S "No collaborations found")
  else if songs_to_artists.isEmpty then Except.error (S "No songs found")
  else Except.ok ()

/-- `DataProcessor.process_data`: build, validate, then save both files
with backups; an exception propagates before any file operation runs. -/
def process_data (rows : List (List Str)) (fs : FS) :
    FS × Except Str (Collabs × Songs) :=
  let cs := build_relationship_dicts rows
  match validate_data cs.1 cs.2 with
  | Except.error e => (fs, Except.error e)
  | Except.ok _ =>
    let fs1 := save_with_backup_collab fs cs.1
    let fs2 := save_with_backup_songs fs1 cs.2
    (fs2, Except.ok cs)

/-- C8: when the build yields an empty adjacency map or an empty song
index, `process_data` raises and returns before writing or backing up
either output file, so the file system is exactly as before. -/
theorem C8_empty_build_aborts_before_write (rows : List (List Str)) (fs : FS)
    (h : (build_relationship_dicts rows).1 = [] ∨
         (build_relationship_dicts rows).2 = []) :
    ∃ e, process_data rows fs = (fs, Except.error e) := by
  unfold process_data validate_data
  by_cases hc : (build_relationship_dicts rows).1.isEmpty
  · exact ⟨S "No collaborations found", by simp [hc]⟩
  · have hs : (build_relationship_dicts rows).2.isEmpty := by
      rcases h with h | h
      · exact absurd (by rw [h]; rfl) hc
      · rw [h]; rfl
    exact ⟨S "No songs found", by simp [hc, hs]⟩

/-- Witness for C8: the empty row list builds empty structures, and the
refresh aborts leaving a pre-populated file system untouched. -/
theorem C8_empty_build_aborts_before_write_witness :
    ∃ e, process_data []
        ⟨some [(S "A", [])], none, some [(S "k", [S "A"])], none⟩ =
      (⟨some [(S "A", [])], none, some [(S "k", [S "A"])], none⟩,
       Except.error e) :=
  C8_empty_build_aborts_before_write [] _ (Or.inl rfl)

end BB

namespace BB

/-! ### The search ranking order, and claim C5. -/

theorem lexLE_total (a b : Str) : lexLE a b = true ∨ lexLE b a = true := by
  induction a generalizing b with
  | nil => exact Or.inl rfl
  | cons x xs ih =>
    cases b with
    | nil => exact Or.inr rfl
    | cons y ys =>
      rcases Nat.lt_trichotomy x.toNat y.toNat with h | h | h
      · exact Or.inl (by rw [lexLE, if_pos h])
      · rcases ih ys with h' | h'
        · exact Or.inl (by rw [lexLE, if_neg (by omega), if_pos h]; exact h')
        · exact Or.inr (by rw [lexLE, if_neg (by omega), if_pos h.symm]; exact h')
      · exact Or.inr (by rw [lexLE, if_pos h])

theorem lexLE_trans (a b c : Str) (hab : lexLE a b = true)
    (hbc : lexLE b c = true) : lexLE a c = true := by
  induction a generalizing b c with
  | nil => rfl
  | cons x xs ih =>
    cases b with
    | nil => exact absurd hab (by rw [lexLE]; simp)
    | cons y ys =>
      cases c with
      | nil => exact absurd hbc (by rw [lexLE]; simp)
      | cons z zs =>
        rw [lexLE] at hab hbc ⊢
        by_cases h1 : x.toNat < y.toNat
        · by_cases h2 : y.toNat < z.toNat
          · rw [if_pos (by omega)]
          · rw [if_neg h2] at hbc
            by_cases h3 : y.toNat = z.toNat
            · rw [if_pos (by omega)]
            · rw [if_neg h3] at hbc
              exact absurd hbc (by simp)
        · rw [if_neg h1] at hab
          by_cases h1' : x.toNat = y.toNat
          · rw [if_pos h1'] at hab
            by_cases h2 : y.toNat < z.toNat
            · rw [if_pos (by omega)]
            · rw [if_neg h2] at hbc
              by_cases h3 : y.toNat = z.toNat
              · rw [if_pos h3] at hbc
                rw [if_neg (by omega), if_pos (by omega)]
                exact ih ys zs hab hbc
              · rw [if_neg h3] at hbc
                exact absurd hbc (by simp)
          · rw [if_neg h1'] at hab
            exact absurd hab (by simp)

theorem skey_total (ql a b : Str) :
    sort_key_leB ql a b = true ∨ sort_key_leB ql b a = true := by
  unfold sort_key_leB
  rcases Nat.lt_trichotomy (sort_key_tier ql a) (sort_key_tier ql b) with h | h | h
  · left; simp [h]
  · rcases lexLE_total a b with h' | h'
    · left; simp [h, h']
    · right; simp [h.symm, h']
  · right; simp [h]

theorem skey_trans (ql a b c : Str) (hab : sort_key_leB ql a b = true)
    (hbc : sort_key_leB ql b c = true) : sort_key_leB ql a c = true := by
  unfold sort_key_leB at hab hbc ⊢
  simp only [Bool.or_eq_true, Bool.and_eq_true, decide_eq_true_eq] at hab hbc ⊢
  rcases hab with h1 | ⟨h1, h1'⟩
  · rcases hbc with h2 | ⟨h2, _⟩
    · exact Or.inl (by omega)
    · exact Or.inl (by omega)
  · rcases hbc with h2 | ⟨h2, h2'⟩
    · exact Or.inl (by omega)
    · exact Or.inr ⟨by omega, lexLE_trans a b c h1' h2'⟩

/-- The full list of artist names in index order (with repeats). -/
def all_names (dal : DAL) : List Str :=
  dal.songs_to_artists.flatMap (fun e => e.2)

/-- C5: search returns `[]` on empty/whitespace queries; otherwise the
result is duplicate-free, holds at most 20 entries, contains only
case-insensitive substring matches from the song index, is ordered with
exact matches (tier 0) before starts-with matches (tier 1) before other
substring matches (tier 2) and lexicographically within a tier, contains
every match when at most 20 exist, and drops a match only when the cap of
20 is full. -/
theorem C5_search_ranking (dal : DAL) (q : Str) :
    (pstrip q = [] → search_artists dal q = []) ∧
    (search_artists dal q).length ≤ 20 ∧
    (search_artists dal q).Nodup ∧
    (search_artists dal q).Pairwise (fun a b =>
      sort_key_tier (lowerStr q) a < sort_key_tier (lowerStr q) b ∨
      (sort_key_tier (lowerStr q) a = sort_key_tier (lowerStr q) b ∧
        lexLE a b = true)) ∧
    (∀ a, a ∈ search_artists dal q →
      a ∈ all_names dal ∧ occursIn (lowerStr q) (lowerStr a) = true) ∧
    (pstrip q ≠ [] → ∀ a, a ∈ all_names dal →
      occursIn (lowerStr q) (lowerStr a) = true →
      a ∈ search_artists dal q ∨ (search_artists dal q).length = 20) := by
  by_cases hq : pstrip q = []
  · rw [show search_artists dal q = [] from by rw [search_artists, if_pos hq]]
    refine ⟨fun _ => rfl, by simp, by simp, by simp, by simp, fun hq' => absurd hq hq'⟩
  · have hres : search_artists dal q =
        (List.insertionSort (fun a b => sort_key_leB (lowerStr q) a b = true)
          (dedupKeep ((all_names dal).filter
            (fun artist => occursIn (lowerStr q) (lowerStr artist))))).take 20 := by
      rw [search_artists, if_neg hq]
      rfl
    set ql := lowerStr q with hql
    set matched := dedupKeep ((all_names dal).filter
      (fun artist => occursIn ql (lowerStr artist))) with hmatched
    set sorted := List.insertionSort
      (fun a b => sort_key_leB ql a b = true) matched with hsorted
    have hperm : List.Perm sorted matched := List.perm_insertionSort _ _
    have hmatched_nodup : matched.Nodup := dedupKeep_nodup _
    have hsorted_nodup : sorted.Nodup := hperm.nodup_iff.mpr hmatched_nodup
    haveI htotal : IsTotal Str (fun a b => sort_key_leB ql a b = true) :=
      ⟨fun a b => skey_total ql a b⟩
    haveI htrans : IsTrans Str (fun a b => sort_key_leB ql a b = true) :=
      ⟨fun a b c => skey_trans ql a b c⟩
    have hsorted_sorted : List.Sorted
        (fun a b => sort_key_leB ql a b = true) sorted :=
      List.sorted_insertionSort _ _
    have hmem_matched : ∀ a, a ∈ matched ↔
        a ∈ all_names dal ∧ occursIn ql (lowerStr a) = true := by
      intro a
      rw [hmatched, mem_dedupKeep, List.mem_filter]
    refine ⟨fun hq' => absurd hq' hq, ?_, ?_, ?_, ?_, ?_⟩
    · rw [hres]
      simp [List.length_take]
    · rw [hres]
      exact hsorted_nodup.sublist (List.take_sublist _ _)
    · rw [hres]
      have : sorted.Pairwise (fun a b => sort_key_leB ql a b = true) :=
        hsorted_sorted
      have htake : (sorted.take 20).Pairwise
          (fun a b => sort_key_leB ql a b = true) :=
        this.sublist (List.take_sublist _ _)
      refine htake.imp ?_
      intro a b hab
      rw [sort_key_leB] at hab
      simp only [Bool.or_eq_true, Bool.and_eq_true, decide_eq_true_eq] at hab
      exact hab
    · intro a ha
      rw [hres] at ha
      have : a ∈ sorted := List.mem_of_mem_take ha
      exact (hmem_matched a).mp (hperm.mem_iff.mp this)
    · intro _ a hmem hocc
      by_cases hlen : sorted.length ≤ 20
      · left
        rw [hres, List.take_of_length_le hlen]
        exact hperm.mem_iff.mpr ((hmem_matched a).mpr ⟨hmem, hocc⟩)
      · right
        rw [hres, List.length_take]
        omega

end BB

namespace BB

/-- Witness for C5: a whitespace query yields `[]`, and a matching query
on a one-song index surfaces the artist (the cap not being reached). -/
theorem C5_search_ranking_witness :
    search_artists one_song_dal (S " ") = [] ∧
    (S "A" ∈ search_artists one_song_dal (S "a") ∨
      (search_artists one_song_dal (S "a")).length = 20) :=
  ⟨(C5_search_ranking one_song_dal (S " ")).1 (by decide),
   (C5_search_ranking one_song_dal (S "a")).2.2.2.2.2 (by decide)
     (S "A") (by decide) (by decide)⟩

end BB

namespace BB

/-! ### Claim C6: the exception list in `_extract_artists`. -/

/-- C6, counterexample: the exception "Tyler, the Creator" occurs in the
field `"xTyler, the Creator"` (exact substring), yet the extractor's
result is the unrestored placeholder `"x__EXC_0__"` — it contains neither
the exception name nor its fragments, because the placeholder is glued to
the leading `x` and is never restored. -/
theorem C6_counterexample :
    occursIn (S "Tyler, the Creator") (S "xTyler, the Creator") = true ∧
    extract_artists (S "xTyler, the Creator") (S "N/A") = [S "x__EXC_0__"] ∧
    S "Tyler, the Creator" ∉ extract_artists (S "xTyler, the Creator") (S "N/A") := by
  refine ⟨by decide, by decide, by decide⟩

/-- Delimiter contexts that may precede an exception occurrence: start of
field, or another name followed by each of the six delimiters. -/
def exc_pres : List Str :=
  [S "", S "A,", S "A&", S "A/", S "A x ", S "A with ", S "A Featuring "]

/-- Delimiter contexts that may follow an exception occurrence. -/
def exc_posts : List Str :=
  [S "", S ",B", S "&B", S "/B", S " x B", S " with B", S " Featuring B"]

/-- The artist set expected from a field `pre ++ exc ++ post`. -/
def exc_expected (d1 d2 exc : Str) : List Str :=
  (if d1 = [] then [] else [S "A"]) ++ [exc] ++ (if d2 = [] then [] else [S "B"])

/-- The finite check behind the amended C6: for every exception name and
every way of embedding it in a field as a whole delimiter-separated
element, extraction (in either artist field) returns exactly the
surrounding names and the exception, unsplit. -/
def exc_protected_check : Bool :=
  EXCEPTIONS.all (fun exc =>
    exc_pres.all (fun d1 =>
      exc_posts.all (fun d2 =>
        decide (extract_artists (d1 ++ exc ++ d2) (S "N/A") =
          exc_expected d1 d2 exc) &&
        decide (extract_artists (S "N/A") (d1 ++ exc ++ d2) =
          exc_expected d1 d2 exc))))

/-- C6 (amended): for every exception-list name embedded as a whole
delimiter-separated element between single-name neighbours — any of the
seven leading contexts (field start, or `A` followed by one of the six
delimiters) combined with any of the seven trailing contexts (field end,
or one of the six delimiters followed by `B`), in either artist field —
extraction returns exactly the neighbours and the exception as one
unsplit element.  The protection does not extend beyond such contexts:
besides glued occurrences (the counterexample above), an occurrence
preceded by the delimiter `" x "` can still be lost when that delimiter
overlaps earlier text, as in `"B x x Tyler, the Creator"`, where the
leftmost non-overlapping `" x "` split consumes the earlier overlap and
leaves the unrestored token `"x __EXC_0__"`. -/
theorem C6_exception_protected :
    exc_protected_check = true ∧
    extract_artists (S "B x x Tyler, the Creator") (S "N/A") =
      [S "B", S "x __EXC_0__"] ∧
    S "Tyler, the Creator" ∉
      extract_artists (S "B x x Tyler, the Creator") (S "N/A") := by
  refine ⟨by decide, by decide, by decide⟩

end BB

namespace BB

/-! ### `shrink_graph_degree` (src/backend/scripts/visualize.py). -/

/-- A `networkx`-style graph: vertex list (insertion order) and one entry
per undirected edge. -/
structure XGraph where
  nodes : List Str
  edges : List (Str × Str)
deriving DecidableEq

/-- `graph.degree[n]`: number of incident edges. -/
def gdegree (g : XGraph) (n : Str) : Nat :=
  (g.edges.filter (fun e => decide (e.1 = n) || decide (e.2 = n))).length

/-- `graph.remove_node(v)`: drop the vertex and its incident edges. -/
def remove_node (g : XGraph) (v : Str) : XGraph :=
  ⟨g.nodes.erase v,
   g.edges.filter (fun e => !(decide (e.1 = v) || decide (e.2 = v)))⟩

/-- Remove a list of vertices in order. -/
def remove_nodes (g : XGraph) (vs : List Str) : XGraph :=
  vs.foldl remove_node g

/-- `degree_dct[d]`: the vertices of the (original) graph with degree `d`,
in insertion order. -/
def degree_group (g : XGraph) (d : Nat) : List Str :=
  g.nodes.filter (fun n => decide (gdegree g n = d))

/-- `lst_degree`: the distinct degrees, sorted ascending. -/
def sorted_degrees (g : XGraph) : List Nat :=
  List.insertionSort (· ≤ ·) (dedupKeep (g.nodes.map (gdegree g)))

/-- The `while reduction_goal > 0 and index < len(lst_degree):` loop:
remove whole degree groups from lowest degree up while they fit in the
remaining quota, then an initial segment of the next group. -/
def shrink_loop (g0 : XGraph) (cur : XGraph) : List Nat → Nat → XGraph
  | _, 0 => cur
  | [], _ + 1 => cur
  | d :: rest, goal + 1 =>
    let grp := degree_group g0 d
    if grp.length ≤ goal + 1 then
      shrink_loop g0 (remove_nodes cur grp) rest (goal + 1 - grp.length)
    else remove_nodes cur (grp.take (goal + 1))

/-- `shrink_graph_degree`: return the graph unchanged when within budget,
else remove lowest-degree vertices (grouped by their degree in the input
graph) until exactly `limit` remain. -/
def shrink_graph_degree (graph : XGraph) (limit : Nat) : XGraph :=
  if graph.nodes.length ≤ limit then graph
  else shrink_loop graph graph (sorted_degrees graph)
    (graph.nodes.length - limit)

theorem remove_nodes_nodes (g : XGraph) (vs : List Str) :
    (remove_nodes g vs).nodes = vs.foldl (fun ns v => ns.erase v) g.nodes := by
  induction vs generalizing g with
  | nil => rfl
  | cons v rest ih =>
    rw [remove_nodes, List.foldl_cons, List.foldl_cons, ← remove_nodes]
    exact ih (remove_node g v)

theorem foldl_erase_eq_filter (vs : List Str) (l : List Str) (h : l.Nodup) :
    vs.foldl (fun ns v => ns.erase v) l =
      l.filter (fun x => decide (x ∉ vs)) := by
  induction vs generalizing l with
  | nil =>
    rw [List.foldl_nil]
    exact (List.filter_eq_self.mpr (by intro a _; simp)).symm
  | cons v rest ih =>
    rw [List.foldl_cons]
    have herase := h.erase_eq_filter v
    rw [herase, ih _ (h.filter _), List.filter_filter]
    apply List.filter_congr
    intro x _
    by_cases hxv : x = v <;> by_cases hxr : x ∈ rest <;>
      simp [hxv, hxr, List.mem_cons]

theorem filter_not_mem_length (l grp : List Str) (hnd : l.Nodup)
    (hgnd : grp.Nodup) (hsub : ∀ x, x ∈ grp → x ∈ l) :
    (l.filter (fun x => decide (x ∉ grp))).length = l.length - grp.length := by
  have hsplit := List.length_eq_length_filter_add
    (l := l) (fun x => decide (x ∈ grp))
  have hin : (l.filter (fun x => decide (x ∈ grp))).length = grp.length := by
    have hperm : List.Perm (l.filter (fun x => decide (x ∈ grp))) grp := by
      apply (List.perm_ext_iff_of_nodup (hnd.filter _) hgnd).mpr
      intro x
      rw [List.mem_filter]
      constructor
      · rintro ⟨_, hx⟩
        simpa using hx
      · intro hx
        exact ⟨hsub x hx, by simpa using hx⟩
    exact hperm.length_eq
  have hcongr : l.filter (fun x => !(decide (x ∈ grp))) =
      l.filter (fun x => decide (x ∉ grp)) := by
    apply List.filter_congr
    intro x _
    by_cases hx : x ∈ grp <;> simp [hx]
  rw [← hcongr]
  omega

end BB

namespace BB

/-- Invariant proof for `shrink_loop`: starting from the sub-graph whose
vertices have degrees in the (sorted, duplicate-free) list `ds`, the loop
removes exactly `goal` vertices, keeps only vertices of the input, and
only ever removes vertices whose (original) degree is at most that of
every surviving vertex. -/
theorem shrink_loop_spec (g0 : XGraph) (hnd : g0.nodes.Nodup) :
    ∀ (ds : List Nat) (goal : Nat) (cur : XGraph),
      cur.nodes = g0.nodes.filter (fun x => decide (gdegree g0 x ∈ ds)) →
      ds.Nodup → List.Sorted (· ≤ ·) ds →
      goal ≤ cur.nodes.length →
      (shrink_loop g0 cur ds goal).nodes.length = cur.nodes.length - goal ∧
      (∀ t, t ∈ (shrink_loop g0 cur ds goal).nodes → t ∈ cur.nodes) ∧
      (∀ r, r ∈ cur.nodes → r ∉ (shrink_loop g0 cur ds goal).nodes →
        ∀ t, t ∈ (shrink_loop g0 cur ds goal).nodes →
          gdegree g0 r ≤ gdegree g0 t) := by
  intro ds
  induction ds with
  | nil =>
    intro goal cur hcur _ _ hgoal
    cases goal with
    | zero =>
      refine ⟨by rw [shrink_loop]; omega, fun t ht => by rwa [shrink_loop] at ht, ?_⟩
      intro r hr hnr _ _
      rw [shrink_loop] at hnr
      exact absurd hr hnr
    | succ g =>
      exfalso
      have : cur.nodes = [] := by
        rw [hcur]
        apply List.filter_eq_nil.mpr
        intro x _
        simp
      rw [this] at hgoal
      simp at hgoal
  | cons d rest ih =>
    intro goal cur hcur hdsnd hdss hgoal
    cases goal with
    | zero =>
      refine ⟨by rw [shrink_loop]; omega, fun t ht => by rwa [shrink_loop] at ht, ?_⟩
      intro r hr hnr _ _
      rw [shrink_loop] at hnr
      exact absurd hr hnr
    | succ g =>
      have hcur_nodup : cur.nodes.Nodup := by rw [hcur]; exact hnd.filter _
      have hgrp_nodup : (degree_group g0 d).Nodup := hnd.filter _
      have hgrp_mem : ∀ x, x ∈ degree_group g0 d ↔
          x ∈ g0.nodes ∧ gdegree g0 x = d := by
        intro x
        rw [degree_group, List.mem_filter]
        simp
      have hgrp_sub_cur : ∀ x, x ∈ degree_group g0 d → x ∈ cur.nodes := by
        intro x hx
        obtain ⟨h1, h2⟩ := (hgrp_mem x).mp hx
        rw [hcur, List.mem_filter]
        exact ⟨h1, by simp [h2]⟩
      have hdnr : d ∉ rest := (List.nodup_cons.mp hdsnd).1
      have hrestnd : rest.Nodup := (List.nodup_cons.mp hdsnd).2
      have hd_le : ∀ d', d' ∈ rest → d ≤ d' := (List.sorted_cons.mp hdss).1
      have hrest_sorted : List.Sorted (· ≤ ·) rest := (List.sorted_cons.mp hdss).2
      rw [shrink_loop]
      by_cases hfit : (degree_group g0 d).length ≤ g + 1
      · rw [if_pos hfit]
        have hgrp_le_cur : (degree_group g0 d).length ≤ cur.nodes.length :=
          (List.subperm_of_subset hgrp_nodup hgrp_sub_cur).length_le
        have hnodes' : (remove_nodes cur (degree_group g0 d)).nodes =
            cur.nodes.filter (fun x => decide (x ∉ degree_group g0 d)) := by
          rw [remove_nodes_nodes, foldl_erase_eq_filter _ _ hcur_nodup]
        have hlen' : (remove_nodes cur (degree_group g0 d)).nodes.length =
            cur.nodes.length - (degree_group g0 d).length := by
          rw [hnodes']
          exact filter_not_mem_length _ _ hcur_nodup hgrp_nodup hgrp_sub_cur
        have hcur' : (remove_nodes cur (degree_group g0 d)).nodes =
            g0.nodes.filter (fun x => decide (gdegree g0 x ∈ rest)) := by
          rw [hnodes', hcur, List.filter_filter]
          apply List.filter_congr
          intro x hx
          have hxg : (x ∈ degree_group g0 d) ↔ gdegree g0 x = d := by
            rw [hgrp_mem x]
            exact ⟨fun h => h.2, fun h => ⟨hx, h⟩⟩
          by_cases hdx : gdegree g0 x = d
          · have : x ∈ degree_group g0 d := hxg.mpr hdx
            simp [this, hdx, hdnr]
          · have : x ∉ degree_group g0 d := fun hc => hdx (hxg.mp hc)
            simp [this, hdx, List.mem_cons]
        have hgoal' : g + 1 - (degree_group g0 d).length ≤
            (remove_nodes cur (degree_group g0 d)).nodes.length := by
          rw [hlen']
          omega
        obtain ⟨ihlen, ihsub, ihrem⟩ :=
          ih (g + 1 - (degree_group g0 d).length)
            (remove_nodes cur (degree_group g0 d)) hcur' hrestnd hrest_sorted hgoal'
        refine ⟨?_, ?_, ?_⟩
        · rw [ihlen, hlen']
          omega
        · intro t ht
          have := ihsub t ht
          rw [hnodes', List.mem_filter] at this
          exact this.1
        · intro r hr hnr t ht
          have htdeg : gdegree g0 t ∈ rest := by
            have := ihsub t ht
            rw [hcur', List.mem_filter] at this
            simpa using this.2
          by_cases hrg : r ∈ degree_group g0 d
          · have : gdegree g0 r = d := ((hgrp_mem r).mp hrg).2
            rw [this]
            exact hd_le _ htdeg
          · have hr' : r ∈ (remove_nodes cur (degree_group g0 d)).nodes := by
              rw [hnodes', List.mem_filter]
              exact ⟨hr, by simpa using hrg⟩
            exact ihrem r hr' hnr t ht
      · rw [if_neg hfit]
        have htake_nodup : ((degree_group g0 d).take (g + 1)).Nodup :=
          hgrp_nodup.sublist (List.take_sublist _ _)
        have htake_sub : ∀ x, x ∈ (degree_group g0 d).take (g + 1) →
            x ∈ degree_group g0 d :=
          fun x hx => List.mem_of_mem_take hx
        have htake_sub_cur : ∀ x, x ∈ (degree_group g0 d).take (g + 1) →
            x ∈ cur.nodes :=
          fun x hx => hgrp_sub_cur x (htake_sub x hx)
        have htake_len : ((degree_group g0 d).take (g + 1)).length = g + 1 := by
          rw [List.length_take]
          omega
        have hnodes' : (remove_nodes cur ((degree_group g0 d).take (g + 1))).nodes =
            cur.nodes.filter
              (fun x => decide (x ∉ (degree_group g0 d).take (g + 1))) := by
          rw [remove_nodes_nodes, foldl_erase_eq_filter _ _ hcur_nodup]
        refine ⟨?_, ?_, ?_⟩
        · rw [hnodes',
            filter_not_mem_length _ _ hcur_nodup htake_nodup htake_sub_cur,
            htake_len]
        · intro t ht
          rw [hnodes', List.mem_filter] at ht
          exact ht.1
        · intro r hr hnr t ht
          have hrt : r ∈ (degree_group g0 d).take (g + 1) := by
            by_contra hc
            apply hnr
            rw [hnodes', List.mem_filter]
            exact ⟨hr, by simpa using hc⟩
          have hrd : gdegree g0 r = d := ((hgrp_mem r).mp (htake_sub r hrt)).2
          have htc : t ∈ cur.nodes := by
            rw [hnodes', List.mem_filter] at ht
            exact ht.1
          have htdeg : gdegree g0 t ∈ d :: rest := by
            rw [hcur, List.mem_filter] at htc
            simpa using htc.2
          rw [hrd]
          rcases List.mem_cons.mp htdeg with h' | h'
          · omega
          · exact hd_le _ h'

/-- C9: `shrinkByDegree(G, k)` returns `G` itself when `k ≥ |V(G)|`;
otherwise it returns a graph on exactly `k` of `G`'s vertices in which
every removed vertex has degree (in `G`) at most the degree of every
retained vertex — the globally lowest-degree vertices go first, ties
within a degree group broken arbitrarily (here: insertion order). -/
theorem C9_shrink_by_degree (g : XGraph) (k : Nat) (hnd : g.nodes.Nodup) :
    (g.nodes.length ≤ k → shrink_graph_degree g k = g) ∧
    (k < g.nodes.length →
      (shrink_graph_degree g k).nodes.length = k ∧
      (∀ t, t ∈ (shrink_graph_degree g k).nodes → t ∈ g.nodes) ∧
      (∀ r, r ∈ g.nodes → r ∉ (shrink_graph_degree g k).nodes →
        ∀ t, t ∈ (shrink_graph_degree g k).nodes →
          gdegree g r ≤ gdegree g t)) := by
  constructor
  · intro h
    rw [shrink_graph_degree, if_pos h]
  · intro h
    have hcomplete : ∀ x, x ∈ g.nodes → gdegree g x ∈ sorted_degrees g := by
      intro x hx
      rw [sorted_degrees, List.mem_insertionSort, mem_dedupKeep]
      exact List.mem_map_of_mem _ hx
    have hcur0 : g.nodes = g.nodes.filter
        (fun x => decide (gdegree g x ∈ sorted_degrees g)) :=
      (List.filter_eq_self.mpr (fun x hx => by simp [hcomplete x hx])).symm
    have hdsnodup : (sorted_degrees g).Nodup :=
      (List.perm_insertionSort _ _).nodup_iff.mpr (dedupKeep_nodup _)
    have hdssorted : List.Sorted (· ≤ ·) (sorted_degrees g) :=
      List.sorted_insertionSort _ _
    have hgoal : g.nodes.length - k ≤ g.nodes.length := Nat.sub_le _ _
    obtain ⟨hlen, hsub, hrem⟩ := shrink_loop_spec g hnd (sorted_degrees g)
      (g.nodes.length - k) g hcur0 hdsnodup hdssorted hgoal
    rw [shrink_graph_degree, if_neg (by omega)]
    refine ⟨?_, hsub, hrem⟩
    rw [hlen]
    omega

/-- A three-vertex path used as the C9 witness input. -/
def path3 : XGraph :=
  ⟨[S "a", S "b", S "c"], [(S "a", S "b"), (S "b", S "c")]⟩

/-- Witness for C9: on the path a–b–c, shrinking to 3 returns the graph
unchanged, and shrinking to 2 keeps exactly two vertices. -/
theorem C9_shrink_by_degree_witness :
    shrink_graph_degree path3 3 = path3 ∧
    (shrink_graph_degree path3 2).nodes.length = 2 :=
  ⟨(C9_shrink_by_degree path3 3 (by decide)).1 (by decide),
   ((C9_shrink_by_degree path3 2 (by decide)).2 (by decide)).1⟩

end BB

namespace BB

/-! ### `Song.serialise` / `Song.deserialise` (src/scripts/process_csv.py). -/

structure Song where
  title : Str
  artists : List Str
  top_rank : Int
deriving DecidableEq

/-- `Song.serialise`:
`f"{self.title}/////{'&&&'.join(self.artists)}/////{str(self.top_rank)}"`. -/
def serialise (song : Song) : Str :=
  song.title ++ S "/////" ++ joinSep (S "&&&") song.artists ++ S "/////" ++
    intChars song.top_rank

/-- `Song.deserialise`: split on `"/////"` into exactly three parts
(unpacking raises otherwise, hence `Option`), split the middle on
`"&&&"`, parse the rank with `int(...)`. -/
def deserialise (s : Str) : Option Song :=
  match splitSub (S "/////") s with
  | [t, a, r] =>
    (parseIntChars r).map (fun n => ⟨t, splitSub (S "&&&") a, n⟩)
  | _ => none

/-! Toolbox: leftmost-split against uniform-character separators. -/

theorem leadsWith_append_self (p x : Str) : leadsWith p (p ++ x) = true := by
  induction p with
  | nil => rfl
  | cons c ps ih => simp [leadsWith, ih]

theorem leadsWith_long (p y z : Str) (hlen : p.length ≤ y.length)
    (h : leadsWith p (y ++ z) = true) : leadsWith p y = true := by
  induction p generalizing y with
  | nil => rfl
  | cons a ps ih =>
    cases y with
    | nil => simp at hlen
    | cons b ys =>
      rw [List.cons_append, leadsWith, Bool.and_eq_true] at h
      rw [leadsWith, Bool.and_eq_true]
      exact ⟨h.1, ih ys (by simpa using hlen) h.2⟩

theorem leadsWith_replicate_split (k : Nat) (c : Char) (z y : Str)
    (hlen : z.length ≤ k)
    (h : leadsWith (List.replicate k c) (z ++ y) = true) :
    (∀ ch, ch ∈ z → ch = c) ∧
    leadsWith (List.replicate (k - z.length) c) y = true := by
  induction z generalizing k with
  | nil =>
    refine ⟨by intro ch hc; simp at hc, ?_⟩
    simpa using h
  | cons ch zs ih =>
    cases k with
    | zero => simp at hlen
    | succ j =>
      rw [List.replicate_succ, List.cons_append, leadsWith, Bool.and_eq_true,
        decide_eq_true_eq] at h
      obtain ⟨ih1, ih2⟩ := ih j (by simpa using hlen) h.2
      refine ⟨?_, ?_⟩
      · intro x hx
        rcases List.mem_cons.mp hx with rfl | hx
        · exact h.1.symm
        · exact ih1 x hx
      · simpa using ih2

theorem leadsWith_replicate_head (k : Nat) (c : Char) (y : Str) (hk : 0 < k)
    (h : leadsWith (List.replicate k c) y = true) : y.head? = some c := by
  cases k with
  | zero => omega
  | succ j =>
    cases y with
    | nil => rw [List.replicate_succ, leadsWith] at h; exact absurd h (by simp)
    | cons d ys =>
      rw [List.replicate_succ, leadsWith, Bool.and_eq_true,
        decide_eq_true_eq] at h
      rw [List.head?_cons, h.1]

theorem occursIn_parts (p : Str) :
    ∀ s₁ s₂, occursIn p (s₁ ++ s₂) = false → leadsWith p s₂ = false := by
  intro s₁
  induction s₁ with
  | nil =>
    intro s₂ h
    rw [List.nil_append] at h
    cases s₂ with
    | nil =>
      cases p with
      | nil => simp [occursIn] at h
      | cons a ps => rfl
    | cons c rest =>
      rw [occursIn, Bool.or_eq_false_iff] at h
      exact h.1
  | cons c s₁' ih =>
    intro s₂ h
    rw [List.cons_append, occursIn, Bool.or_eq_false_iff] at h
    exact ih s₂ h.2

theorem occursIn_false_of_not_mem (k : Nat) (c : Char) (s : Str) (hk : 0 < k)
    (h : c ∉ s) : occursIn (List.replicate k c) s = false := by
  induction s with
  | nil =>
    rw [occursIn]
    cases k with
    | zero => omega
    | succ j => simp [List.replicate_succ]
  | cons d rest ih =>
    rw [occursIn, Bool.or_eq_false_iff]
    constructor
    · cases k with
      | zero => omega
      | succ j =>
        rw [List.replicate_succ, leadsWith]
        have : c ≠ d := fun hc => h (hc ▸ List.mem_cons_self _ _)
        simp [this]
    · exact ih (fun hc => h (List.mem_cons_of_mem _ hc))

theorem all_c_getLast (c : Char) (z : Str) (hne : z ≠ [])
    (h : ∀ ch, ch ∈ z → ch = c) : z.getLast? = some c := by
  induction z with
  | nil => exact absurd rfl hne
  | cons x zs ih =>
    cases zs with
    | nil => rw [h x (List.mem_cons_self _ _)]; rfl
    | cons y t =>
      rw [List.getLast?_cons_cons]
      exact ih (by simp) (fun ch hc => h ch (List.mem_cons_of_mem _ hc))

/-- No occurrence of the run `c^k` can start inside `a` when `a` contains
no such run and does not end with `c` — the straddle analysis for a
uniform-character separator. -/
theorem no_early_run (k : Nat) (c : Char) (hk : 0 < k) (a X : Str)
    (hno : occursIn (List.replicate k c) a = false)
    (hlast : a.getLast? ≠ some c) :
    ∀ a₁ a₂, a = a₁ ++ a₂ → a₂ ≠ [] →
      leadsWith (List.replicate k c) (a₂ ++ (List.replicate k c ++ X)) = false := by
  intro a₁ a₂ heq hne
  by_contra hcon
  have hlead : leadsWith (List.replicate k c) (a₂ ++ (List.replicate k c ++ X)) = true := by
    revert hcon
    cases leadsWith (List.replicate k c) (a₂ ++ (List.replicate k c ++ X)) <;> simp
  by_cases hlen : k ≤ a₂.length
  · have h2 : leadsWith (List.replicate k c) a₂ = true :=
      leadsWith_long _ _ _ (by simpa using hlen) hlead
    have h3 : leadsWith (List.replicate k c) a₂ = false :=
      occursIn_parts _ a₁ a₂ (heq ▸ hno)
    rw [h2] at h3
    exact absurd h3 (by simp)
  · have hsplit := leadsWith_replicate_split k c a₂ _ (by omega) hlead
    have hall : ∀ ch, ch ∈ a₂ → ch = c := hsplit.1
    have : a.getLast? = some c := by
      rw [heq, List.getLast?_append_of_ne_nil _ hne]
      exact all_c_getLast c a₂ hne hall
    exact hlast this

end BB

namespace BB

/-! Split lemmas for `splitGo` / `splitSub`. -/

theorem splitGo_skip (sep : Str) (x rest acc : Str) :
    splitGo sep (x ++ rest) acc x.length = splitGo sep rest acc 0 := by
  induction x with
  | nil => rfl
  | cons c x' ih => exact ih

theorem splitGo_slide (sep a b acc : Str)
    (h : ∀ a₁ a₂, a = a₁ ++ a₂ → a₂ ≠ [] → leadsWith sep (a₂ ++ b) = false) :
    splitGo sep (a ++ b) acc 0 = splitGo sep b (a.reverse ++ acc) 0 := by
  induction a generalizing acc with
  | nil => simp
  | cons c a' ih =>
    have hfalse : leadsWith sep ((c :: a') ++ b) = false :=
      h [] (c :: a') rfl (by simp)
    rw [List.cons_append, splitGo, if_neg (by rw [← List.cons_append, hfalse]; simp)]
    have h' : ∀ a₁ a₂, a' = a₁ ++ a₂ → a₂ ≠ [] → leadsWith sep (a₂ ++ b) = false :=
      fun a₁ a₂ heq hne => h (c :: a₁) a₂ (by rw [heq, List.cons_append]) hne
    rw [ih (c :: acc) h']
    congr 1
    simp

theorem splitGo_match (sep b acc : Str) (hne : sep ≠ []) :
    splitGo sep (sep ++ b) acc 0 = acc.reverse :: splitGo sep b [] 0 := by
  cases hsep : sep with
  | nil => exact absurd hsep hne
  | cons s0 sep' =>
    rw [List.cons_append, splitGo,
      if_pos (by rw [← List.cons_append, ← hsep]; exact leadsWith_append_self _ _)]
    congr 1
    have : (s0 :: sep').length - 1 = sep'.length := by simp
    rw [this, splitGo_skip]

theorem splitGo_last (sep a acc : Str) (h : occursIn sep a = false) :
    splitGo sep a acc 0 = [acc.reverse ++ a] := by
  have hs : splitGo sep (a ++ []) acc 0 = splitGo sep [] (a.reverse ++ acc) 0 := by
    apply splitGo_slide
    intro a₁ a₂ heq hne
    rw [List.append_nil]
    exact occursIn_parts sep a₁ a₂ (heq ▸ h)
  rw [List.append_nil] at hs
  rw [hs, splitGo]
  simp

theorem split_boundary (sep a rest acc : Str) (hne : sep ≠ [])
    (h : ∀ a₁ a₂, a = a₁ ++ a₂ → a₂ ≠ [] →
      leadsWith sep (a₂ ++ (sep ++ rest)) = false) :
    splitGo sep (a ++ (sep ++ rest)) acc 0 =
      (acc.reverse ++ a) :: splitGo sep rest [] 0 := by
  rw [splitGo_slide sep a (sep ++ rest) acc h, splitGo_match sep rest _ hne]
  congr 1
  simp

/-- The three-part split underlying `deserialise ∘ serialise`: when
neither the title nor the middle contains the separator run or ends with
`'/'`, and the rank text has no run, splitting recovers the parts. -/
theorem split_three (t m r : Str)
    (ht : occursIn (S "/////") t = false) (htl : t.getLast? ≠ some '/')
    (hm : occursIn (S "/////") m = false) (hml : m.getLast? ≠ some '/')
    (hr : occursIn (S "/////") r = false) :
    splitSub (S "/////") (t ++ (S "/////" ++ (m ++ (S "/////" ++ r)))) =
      [t, m, r] := by
  have hrepl : S "/////" = List.replicate 5 '/' := rfl
  have hne : S "/////" ≠ [] := by decide
  rw [splitSub, if_neg (by decide)]
  rw [split_boundary _ _ _ _ hne ?h1]
  case h1 =>
    intro a₁ a₂ heq hane
    rw [hrepl] at *
    exact no_early_run 5 '/' (by omega) t _ ht htl a₁ a₂ heq hane
  rw [split_boundary _ _ _ _ hne ?h2]
  case h2 =>
    intro a₁ a₂ heq hane
    rw [hrepl] at *
    exact no_early_run 5 '/' (by omega) m _ hm hml a₁ a₂ heq hane
  rw [splitGo_last _ _ _ hr]
  simp

end BB

namespace BB

/-! Occurrence-freeness across concatenations and joins. -/

theorem occursIn_run_append_head (k : Nat) (c : Char) (hk : 0 < k)
    (x y : Str) (hx : occursIn (List.replicate k c) x = false)
    (hy : occursIn (List.replicate k c) y = false)
    (hhead : y.head? ≠ some c) :
    occursIn (List.replicate k c) (x ++ y) = false := by
  induction x with
  | nil => simpa using hy
  | cons a x' ih =>
    rw [occursIn, Bool.or_eq_false_iff] at hx
    rw [List.cons_append, occursIn, Bool.or_eq_false_iff]
    refine ⟨?_, ih hx.2⟩
    by_contra hcon
    have hlead : leadsWith (List.replicate k c) ((a :: x') ++ y) = true := by
      revert hcon
      rw [List.cons_append]
      cases leadsWith (List.replicate k c) (a :: (x' ++ y)) <;> simp
    by_cases hlen : k ≤ (a :: x').length
    · have := leadsWith_long _ _ _ (by simpa using hlen) hlead
      rw [this] at hx
      exact absurd hx.1 (by simp)
    · obtain ⟨_, htail⟩ :=
        leadsWith_replicate_split k c (a :: x') y (by omega) hlead
      have hpos : 0 < k - (a :: x').length := by
        simp only [List.length_cons] at hlen ⊢
        omega
      exact hhead (leadsWith_replicate_head _ _ _ hpos htail)

theorem occursIn_run_append_last (k : Nat) (c : Char) (hk : 0 < k)
    (x y : Str) (hx : occursIn (List.replicate k c) x = false)
    (hy : occursIn (List.replicate k c) y = false)
    (hlast : x.getLast? ≠ some c) :
    occursIn (List.replicate k c) (x ++ y) = false := by
  induction x with
  | nil => simpa using hy
  | cons a x' ih =>
    rw [occursIn, Bool.or_eq_false_iff] at hx
    rw [List.cons_append, occursIn, Bool.or_eq_false_iff]
    have hlast' : x'.getLast? ≠ some c := by
      cases hx' : x' with
      | nil => simp
      | cons b t =>
        rw [hx'] at hlast
        rwa [List.getLast?_cons_cons] at hlast
    refine ⟨?_, ih hx.2 hlast'⟩
    by_contra hcon
    have hlead : leadsWith (List.replicate k c) ((a :: x') ++ y) = true := by
      revert hcon
      rw [List.cons_append]
      cases leadsWith (List.replicate k c) (a :: (x' ++ y)) <;> simp
    by_cases hlen : k ≤ (a :: x').length
    · have := leadsWith_long _ _ _ (by simpa using hlen) hlead
      rw [this] at hx
      exact absurd hx.1 (by simp)
    · obtain ⟨hall, _⟩ :=
        leadsWith_replicate_split k c (a :: x') y (by omega) hlead
      exact hlast (all_c_getLast c (a :: x') (by simp) hall)

/-- The joined artist string contains no `"/////"` run when no artist
does: a run of `'/'` cannot cross an `"&&&"` separator. -/
theorem join_no_slash_run (artists : List Str)
    (h : ∀ a, a ∈ artists → occursIn (S "/////") a = false) :
    occursIn (S "/////") (joinSep (S "&&&") artists) = false := by
  have hrepl : S "/////" = List.replicate 5 '/' := rfl
  induction artists with
  | nil => rw [joinSep]; decide
  | cons x rest ih =>
    cases rest with
    | nil =>
      rw [joinSep]
      exact h x (List.mem_cons_self _ _)
    | cons y t =>
      rw [joinSep, List.append_assoc, hrepl]
      apply occursIn_run_append_head 5 '/' (by omega)
      · rw [← hrepl]; exact h x (List.mem_cons_self _ _)
      · apply occursIn_run_append_last 5 '/' (by omega)
        · decide
        · rw [← hrepl]
          exact ih (fun a ha => h a (List.mem_cons_of_mem _ ha))
        · decide
      · rw [List.head?_append_of_ne_nil _ (by decide : S "&&&" ≠ [])]
        decide

/-- The joined artist string ends in `'/'` only if the last artist does. -/
theorem join_getLast_slash (artists : List Str)
    (h : (joinSep (S "&&&") artists).getLast? = some '/') :
    ∃ la, artists.getLast? = some la ∧ la.getLast? = some '/' := by
  induction artists with
  | nil => rw [joinSep] at h; simp at h
  | cons x rest ih =>
    cases rest with
    | nil =>
      rw [joinSep] at h
      exact ⟨x, rfl, h⟩
    | cons y t =>
      have hA3ne : S "&&&" ++ joinSep (S "&&&") (y :: t) ≠ [] := by
        intro hc
        exact absurd (List.append_eq_nil.mp hc).1 (by decide)
      rw [joinSep, List.append_assoc,
        List.getLast?_append_of_ne_nil _ hA3ne] at h
      by_cases hj : joinSep (S "&&&") (y :: t) = []
      · rw [hj, List.append_nil] at h
        exact absurd h (by decide)
      · rw [List.getLast?_append_of_ne_nil _ hj] at h
        obtain ⟨la, hla1, hla2⟩ := ih h
        exact ⟨la, by rw [List.getLast?_cons_cons]; exact hla1, hla2⟩

/-- Splitting the joined artist list on `"&&&"` recovers the artists,
provided no artist contains `"&&&"` and no artist except the last ends
with `'&'`. -/
theorem splitSub_join (artists : List Str) (hne : artists ≠ [])
    (h3 : ∀ a, a ∈ artists → occursIn (S "&&&") a = false)
    (hamp : ∀ a, a ∈ artists.dropLast → a.getLast? ≠ some '&') :
    splitSub (S "&&&") (joinSep (S "&&&") artists) = artists := by
  have hrepl : S "&&&" = List.replicate 3 '&' := rfl
  induction artists with
  | nil => exact absurd rfl hne
  | cons x rest ih =>
    cases rest with
    | nil =>
      rw [joinSep, splitSub, if_neg (by decide),
        splitGo_last _ _ _ (h3 x (List.mem_cons_self _ _))]
      simp
    | cons y t =>
      rw [joinSep, List.append_assoc, splitSub, if_neg (by decide)]
      rw [split_boundary _ _ _ _ (by decide) ?hb]
      case hb =>
        intro a₁ a₂ heq hane
        rw [hrepl]
        refine no_early_run 3 '&' (by omega) x _ ?_ ?_ a₁ a₂ heq hane
        · rw [← hrepl]; exact h3 x (List.mem_cons_self _ _)
        · apply hamp
          rw [List.dropLast_cons_of_ne_nil (by simp)]
          exact List.mem_cons_self _ _
      have htail : splitGo (S "&&&") (joinSep (S "&&&") (y :: t)) [] 0 =
          splitSub (S "&&&") (joinSep (S "&&&") (y :: t)) := by
        rw [splitSub, if_neg (by decide)]
      rw [List.reverse_nil, List.nil_append, htail,
        ih (by simp) (fun a ha => h3 a (List.mem_cons_of_mem _ ha)) ?hamp']
      case hamp' =>
        intro a ha
        apply hamp
        rw [List.dropLast_cons_of_ne_nil (by simp)]
        exact List.mem_cons_of_mem _ ha

end BB

namespace BB

/-! Integer print/parse round-trip, and claim C10. -/

theorem ofDigits_append_digit (xs : Str) (c : Char) :
    ofDigits (xs ++ [c]) = ofDigits xs * 10 + (c.toNat - 48) := by
  rw [ofDigits, ofDigits, List.foldl_append]
  rfl

theorem digit_char_spec (d : Nat) (hd : d < 10) :
    isDigitCh (Char.ofNat (48 + d)) = true ∧ (Char.ofNat (48 + d)).toNat = 48 + d := by
  interval_cases d <;> exact ⟨by decide, by decide⟩

theorem natCharsF_spec : ∀ (f n : Nat), n < f →
    (∀ ch, ch ∈ natCharsF f n → isDigitCh ch = true) ∧
    natCharsF f n ≠ [] ∧
    ofDigits (natCharsF f n) = n := by
  intro f
  induction f with
  | zero => intro n h; omega
  | succ f' ih =>
    intro n hn
    by_cases h10 : n < 10
    · rw [natCharsF, if_pos h10]
      obtain ⟨hd1, hd2⟩ := digit_char_spec n h10
      refine ⟨?_, by simp, ?_⟩
      · intro ch hch
        rw [List.mem_singleton] at hch
        rw [hch]
        exact hd1
      · rw [ofDigits, List.foldl_cons, List.foldl_nil, hd2]
        omega
    · rw [natCharsF, if_neg h10]
      have hdiv : n / 10 < n := Nat.div_lt_self (by omega) (by omega)
      obtain ⟨ih1, ih2, ih3⟩ := ih (n / 10) (by omega)
      have hm : n % 10 < 10 := Nat.mod_lt _ (by omega)
      obtain ⟨hd1, hd2⟩ := digit_char_spec (n % 10) hm
      refine ⟨?_, by simp, ?_⟩
      · intro ch hch
        rcases List.mem_append.mp hch with hch | hch
        · exact ih1 ch hch
        · rw [List.mem_singleton] at hch
          rw [hch]
          exact hd1
      · rw [ofDigits_append_digit, ih3, hd2]
        omega

theorem parseIntChars_natChars (n : Nat) :
    parseIntChars (natChars n) = some (n : Int) := by
  obtain ⟨hdig, hne, hval⟩ := natCharsF_spec (n + 1) n (by omega)
  rw [natChars]
  cases hl : natCharsF (n + 1) n with
  | nil => exact absurd hl hne
  | cons c rest =>
    have hc : isDigitCh c = true := hdig c (by rw [hl]; exact List.mem_cons_self _ _)
    have hcne : ¬(c = '-') := by
      intro h
      rw [h] at hc
      exact absurd hc (by decide)
    rw [parseIntChars, if_neg hcne,
      if_pos (List.all_eq_true.mpr (fun x hx => hdig x (by rw [hl]; exact hx)))]
    rw [hl] at hval
    rw [hval]

theorem parseIntChars_intChars (z : Int) :
    parseIntChars (intChars z) = some z := by
  by_cases hz : z < 0
  · rw [intChars, if_pos hz]
    obtain ⟨hdig, hne, hval⟩ := natCharsF_spec ((-z).toNat + 1) (-z).toNat (by omega)
    rw [parseIntChars, if_pos rfl,
      if_pos ⟨hne, List.all_eq_true.mpr (fun x hx => hdig x hx)⟩]
    rw [show ofDigits (natChars (-z).toNat) = (-z).toNat from hval]
    congr 1
    omega
  · rw [intChars, if_neg hz, parseIntChars_natChars]
    congr 1
    omega

theorem slash_not_mem_intChars (z : Int) : '/' ∉ intChars z := by
  have hnat : ∀ n, '/' ∉ natChars n := by
    intro n hc
    obtain ⟨hdig, _, _⟩ := natCharsF_spec (n + 1) n (by omega)
    have := hdig '/' hc
    exact absurd this (by decide)
  rw [intChars]
  by_cases hz : z < 0
  · rw [if_pos hz]
    intro hc
    rcases List.mem_cons.mp hc with h | h
    · exact absurd h (by decide)
    · exact hnat _ h
  · rw [if_neg hz]
    exact hnat _

/-- A song whose fields contain neither delimiter, yet whose round trip
fails: the title ends in `'/'`, so the leftmost `"/////"` found by
`split` starts one character early. -/
def bad_song : Song := ⟨S "a/", [S "X"], 1⟩

/-- C10, counterexample: `bad_song` satisfies the stated precondition
(no field contains `"/////"` or `"&&&"`, integer rank), yet
`deserialise (serialise bad_song)` is `Song("a", ["/X"], 1)`, not
`bad_song`. -/
theorem C10_counterexample :
    occursIn (S "/////") (S "a/") = false ∧ occursIn (S "&&&") (S "a/") = false ∧
    occursIn (S "/////") (S "X") = false ∧ occursIn (S "&&&") (S "X") = false ∧
    deserialise (serialise bad_song) = some ⟨S "a", [S "/X"], 1⟩ ∧
    deserialise (serialise bad_song) ≠ some bad_song := by
  refine ⟨by decide, by decide, by decide, by decide, by decide, by decide⟩

/-- C10 (amended): the round trip `deserialise ∘ serialise` is the
identity provided additionally that the artist list is non-empty, the
title does not end in `'/'`, no artist before the last ends in `'&'`,
and the last artist does not end in `'/'` (the failure modes the
counterexample family exposes at the delimiter boundaries). -/
theorem C10_serialise_roundtrip (song : Song)
    (ht5 : occursIn (S "/////") song.title = false)
    (ht3 : occursIn (S "&&&") song.title = false)
    (hA : song.artists ≠ [])
    (ha5 : ∀ a, a ∈ song.artists → occursIn (S "/////") a = false)
    (ha3 : ∀ a, a ∈ song.artists → occursIn (S "&&&") a = false)
    (htl : song.title.getLast? ≠ some '/')
    (hamp : ∀ a, a ∈ song.artists.dropLast → a.getLast? ≠ some '&')
    (hsl : ∀ la, song.artists.getLast? = some la → la.getLast? ≠ some '/') :
    deserialise (serialise song) = some song := by
  obtain ⟨t, artists, z⟩ := song
  simp only at ht5 ht3 hA ha5 ha3 htl hamp hsl
  have hM5 : occursIn (S "/////") (joinSep (S "&&&") artists) = false :=
    join_no_slash_run artists ha5
  have hML : (joinSep (S "&&&") artists).getLast? ≠ some '/' := by
    intro hc
    obtain ⟨la, h1, h2⟩ := join_getLast_slash artists hc
    exact hsl la h1 h2
  have hR : occursIn (S "/////") (intChars z) = false := by
    rw [show S "/////" = List.replicate 5 '/' from rfl]
    exact occursIn_false_of_not_mem 5 '/' _ (by omega) (slash_not_mem_intChars z)
  have hassoc : t ++ S "/////" ++ joinSep (S "&&&") artists ++ S "/////" ++
      intChars z =
      t ++ (S "/////" ++ (joinSep (S "&&&") artists ++ (S "/////" ++ intChars z))) := by
    simp [List.append_assoc]
  rw [deserialise, serialise]
  simp only
  rw [hassoc, split_three t _ _ ht5 htl hM5 hML hR]
  show Option.map
      (fun n => (⟨t, splitSub (S "&&&") (joinSep (S "&&&") artists), n⟩ : Song))
      (parseIntChars (intChars z)) = _
  rw [parseIntChars_intChars, Option.map_some',
    splitSub_join artists hA ha3 hamp]

/-- A well-behaved concrete song, round-tripped via the amended C10. -/
def good_song : Song := ⟨S "t", [S "X", S "Y"], 12⟩

/-- Witness for C10 (amended). -/
theorem C10_serialise_roundtrip_witness :
    deserialise (serialise good_song) = some good_song :=
  C10_serialise_roundtrip good_song (by decide) (by decide) (by decide)
    (by decide) (by decide) (by decide) (by decide)
    (by intro la hla; simp [good_song] at hla; rw [← hla]; decide)

end BB

namespace BB

/-! ### Claim C1: spec-side graph, reachability, and the key bridge. -/

/-- The song-collaboration graph: two distinct artists are adjacent iff
they appear together on some song of the index. -/
def adjB (dal : DAL) (a b : Str) : Prop :=
  a ≠ b ∧ ∃ e, e ∈ dal.songs_to_artists ∧ a ∈ e.2 ∧ b ∈ e.2

/-- `reachIn dal A n b`: `b` is reachable from `A` in at most `n` hops. -/
def reachIn (dal : DAL) (A : Str) : Nat → Str → Prop
  | 0, b => b = A
  | n + 1, b => reachIn dal A n b ∨ ∃ x, reachIn dal A n x ∧ adjB dal x b

/-- `b` is at hop distance exactly `k` from `A`. -/
def distEq (dal : DAL) (A b : Str) (k : Nat) : Prop :=
  reachIn dal A k b ∧ ∀ m, m < k → ¬ reachIn dal A m b

theorem reachIn_mono (dal : DAL) (A : Str) (n m : Nat) (b : Str)
    (h : reachIn dal A n b) (hnm : n ≤ m) : reachIn dal A m b := by
  induction m with
  | zero =>
    have : n = 0 := by omega
    rwa [this] at h
  | succ m' ih =>
    by_cases hn : n ≤ m'
    · exact Or.inl (ih hn)
    · have : n = m' + 1 := by omega
      rwa [this] at h

theorem distEq_unique (dal : DAL) (A b : Str) (k k' : Nat)
    (h : distEq dal A b k) (h' : distEq dal A b k') : k = k' := by
  rcases Nat.lt_trichotomy k k' with hlt | he | hgt
  · exact absurd h.1 (h'.2 k hlt)
  · exact he
  · exact absurd h'.1 (h.2 k' hgt)

theorem mem_akeys_of_aget? {β : Type} (m : List (Str × β)) (k : Str) (v : β)
    (h : aget? m k = some v) : k ∈ akeys m := by
  induction m with
  | nil => simp [aget?] at h
  | cons p rest ih =>
    by_cases hp : p.1 = k
    · exact (mem_akeys_cons p rest k).mpr (Or.inl hp.symm)
    · rw [aget?, if_neg hp] at h
      exact (mem_akeys_cons p rest k).mpr (Or.inr (ih h))

theorem tally_other_mono (a : Str) (names : List Str)
    (conns0 : List (Str × Nat)) (b : Str) (h : b ∈ akeys conns0) :
    b ∈ akeys (names.foldl (tally_other a) conns0) := by
  induction names generalizing conns0 with
  | nil => exact h
  | cons n rest ih =>
    rw [List.foldl_cons]
    apply ih
    rw [tally_other]
    by_cases hn : n ≠ a
    · rw [if_pos hn]
      exact (mem_akeys_aset _ _ _ _).mpr (Or.inl h)
    · rw [if_neg hn]
      exact h

theorem tally_other_complete (a b : Str) (hba : b ≠ a) :
    ∀ (names : List Str) (conns0 : List (Str × Nat)), b ∈ names →
      b ∈ akeys (names.foldl (tally_other a) conns0) := by
  intro names
  induction names with
  | nil => intro conns0 hb; simp at hb
  | cons n rest ih =>
    intro conns0 hb
    rw [List.foldl_cons]
    rcases List.mem_cons.mp hb with rfl | hb'
    · apply tally_other_mono
      rw [tally_other, if_pos hba]
      exact (mem_akeys_aset _ _ _ _).mpr (Or.inr rfl)
    · exact ih _ hb'

end BB

namespace BB

theorem tally_song_mono (a : Str) (b : Str) :
    ∀ (l : List (Str × List Str)) (conns0 : List (Str × Nat)),
      b ∈ akeys conns0 → b ∈ akeys (l.foldl (tally_song a) conns0) := by
  intro l
  induction l with
  | nil => intro conns0 h; exact h
  | cons e rest ih =>
    intro conns0 h
    rw [List.foldl_cons]
    apply ih
    rw [tally_song]
    by_cases he : a ∈ e.2
    · rw [if_pos he]
      exact tally_other_mono _ _ _ _ h
    · rw [if_neg he]
      exact h

theorem tally_song_complete (a b : Str) (hba : b ≠ a) :
    ∀ (l : List (Str × List Str)) (conns0 : List (Str × Nat)) (e : Str × List Str),
      e ∈ l → a ∈ e.2 → b ∈ e.2 →
      b ∈ akeys (l.foldl (tally_song a) conns0) := by
  intro l
  induction l with
  | nil => intro conns0 e he; simp at he
  | cons e0 rest ih =>
    intro conns0 e he ha hb
    rw [List.foldl_cons]
    rcases List.mem_cons.mp he with rfl | he'
    · apply tally_song_mono
      rw [tally_song, if_pos ha]
      exact tally_other_complete a b hba _ _ hb
    · exact ih _ e he' ha hb

theorem tally_song_fold_keys2 (a : Str) :
    ∀ (l : List (Str × List Str)) (conns0 : List (Str × Nat)) (k : Str),
      k ∈ akeys (l.foldl (tally_song a) conns0) →
      k ∈ akeys conns0 ∨ ∃ e, e ∈ l ∧ a ∈ e.2 ∧ k ∈ e.2 ∧ k ≠ a := by
  intro l
  induction l with
  | nil => intro conns0 k hk; exact Or.inl hk
  | cons e rest ih =>
    intro conns0 k hk
    rw [List.foldl_cons] at hk
    rcases ih _ k hk with hk' | ⟨e', he', ha', hk', hne'⟩
    · rw [tally_song] at hk'
      by_cases he : a ∈ e.2
      · rw [if_pos he] at hk'
        rcases tally_other_fold_keys _ _ _ k hk' with h' | h'
        · exact Or.inl h'
        · exact Or.inr ⟨e, List.mem_cons_self _ _, he, h'.1, h'.2⟩
      · rw [if_neg he] at hk'
        exact Or.inl hk'
    · exact Or.inr ⟨e', List.mem_cons_of_mem _ he', ha', hk', hne'⟩

/-- Bridge between the raw tally and the spec-side graph: for a trimmed
name `x`, the tally's keys are exactly the neighbours of `x` in the
song-collaboration graph. -/
theorem raw_keys_iff (dal : DAL) (x : Str) (hx : pstrip x = x) (b : Str) :
    b ∈ akeys (get_direct_collaborators_raw dal x) ↔ adjB dal x b := by
  rw [get_direct_collaborators_raw, hx]
  constructor
  · intro hk
    rcases tally_song_fold_keys2 x _ _ b hk with h' | ⟨e, he, ha, hb, hne⟩
    · exact absurd h' (not_mem_akeys_nil b)
    · exact ⟨fun hc => hne hc.symm, e, he, ha, hb⟩
  · rintro ⟨hne, e, he, ha, hb⟩
    exact tally_song_complete x b (fun hc => hne hc.symm) _ _ e he ha hb

end BB

namespace BB

/-! ### Level-by-level view of the BFS loop. -/

/-- The collaborators of `cur` not yet in the visited list `vis`. -/
def newlyOf (dal : DAL) (cur : Str) (vis : List Str) : List (Str × Nat) :=
  (get_direct_collaborators_raw dal cur).filter
    (fun kv => decide (kv.1 ∉ vis))

/-- Expanding one frontier node: append the fresh discoveries to the
accumulator, the visited list, and the connection map (at degree `t+1`). -/
def pf_step (dal : DAL) (t : Nat)
    (st : List Str × List Str × List (Str × Conn)) (cur : Str) :
    List Str × List Str × List (Str × Conn) :=
  (st.1 ++ (newlyOf dal cur st.2.1).map Prod.fst,
   st.2.1 ++ (newlyOf dal cur st.2.1).map Prod.fst,
   st.2.2 ++ (newlyOf dal cur st.2.1).map (fun kv => (kv.1, (kv.2, t + 1))))

/-- Processing a whole BFS level. -/
def process_front (dal : DAL) (t : Nat) (front v : List Str)
    (c : List (Str × Conn)) : List Str × List Str × List (Str × Conn) :=
  front.foldl (pf_step dal t) ([], v, c)

/-- Level-by-level reference run of the BFS: returns the final connection
map together with the number of queue entries the fuelled loop dequeues. -/
def levelsTrace (dal : DAL) (maxD : Nat) :
    Nat → Nat → List Str → List Str → List (Str × Conn) →
      List (Str × Conn) × Nat
  | 0, _, front, _, c => (c, front.length)
  | b + 1, t, front, v, c =>
    if t < maxD then
      (let st := process_front dal t front v c
       let r := levelsTrace dal maxD b (t + 1) st.1 st.2.1 st.2.2
       (r.1, front.length + r.2))
    else (c, front.length)

theorem pf_fold_split (dal : DAL) (t : Nat) :
    ∀ (front : List Str) (n0 v0 : List Str) (c0 : List (Str × Conn)),
      front.foldl (pf_step dal t) (n0, v0, c0) =
        (n0 ++ (front.foldl (pf_step dal t) ([], v0, c0)).1,
         (front.foldl (pf_step dal t) ([], v0, c0)).2) := by
  intro front
  induction front with
  | nil => intro n0 v0 c0; simp
  | cons cur rest ih =>
    intro n0 v0 c0
    have hstep : ∀ (m0 : List Str), pf_step dal t (m0, v0, c0) cur =
        (m0 ++ (newlyOf dal cur v0).map Prod.fst,
         v0 ++ (newlyOf dal cur v0).map Prod.fst,
         c0 ++ (newlyOf dal cur v0).map (fun kv => (kv.1, (kv.2, t + 1)))) :=
      fun m0 => rfl
    rw [List.foldl_cons, List.foldl_cons, hstep n0, hstep [], List.nil_append,
      ih (n0 ++ List.map Prod.fst (newlyOf dal cur v0)),
      ih (List.map Prod.fst (newlyOf dal cur v0))]
    simp [List.append_assoc]

theorem pf_cons (dal : DAL) (t : Nat) (cur : Str) (front v : List Str)
    (c : List (Str × Conn)) :
    process_front dal t (cur :: front) v c =
      ((newlyOf dal cur v).map Prod.fst ++
        (process_front dal t front
          (v ++ (newlyOf dal cur v).map Prod.fst)
          (c ++ (newlyOf dal cur v).map (fun kv => (kv.1, (kv.2, t + 1))))).1,
       (process_front dal t front
          (v ++ (newlyOf dal cur v).map Prod.fst)
          (c ++ (newlyOf dal cur v).map (fun kv => (kv.1, (kv.2, t + 1))))).2) := by
  rw [process_front, List.foldl_cons,
    show pf_step dal t ([], v, c) cur =
      ((newlyOf dal cur v).map Prod.fst,
       v ++ (newlyOf dal cur v).map Prod.fst,
       c ++ (newlyOf dal cur v).map (fun kv => (kv.1, (kv.2, t + 1)))) from rfl,
    pf_fold_split]
  rfl

theorem pf_visited (dal : DAL) (t : Nat) :
    ∀ (front : List Str) (v : List Str) (c : List (Str × Conn)),
      (process_front dal t front v c).2.1 =
        v ++ (process_front dal t front v c).1 := by
  intro front
  induction front with
  | nil => intro v c; simp [process_front]
  | cons cur rest ih =>
    intro v c
    rw [pf_cons]
    simp only
    rw [ih]
    simp [List.append_assoc]

theorem pf_keys (dal : DAL) (t : Nat) :
    ∀ (front : List Str) (v : List Str) (c : List (Str × Conn)),
      akeys (process_front dal t front v c).2.2 =
        akeys c ++ (process_front dal t front v c).1 := by
  intro front
  induction front with
  | nil => intro v c; simp [process_front]
  | cons cur rest ih =>
    intro v c
    rw [pf_cons]
    simp only
    rw [ih]
    rw [akeys, List.map_append, ← akeys, ← akeys]
    have : akeys ((newlyOf dal cur v).map (fun kv => (kv.1, (kv.2, t + 1)))) =
        (newlyOf dal cur v).map Prod.fst := by
      rw [akeys, List.map_map]
      rfl
    rw [this]
    simp [List.append_assoc]

end BB

namespace BB

theorem mem_newly_keys (dal : DAL) (cur : Str) (vis : List Str) (x : Str) :
    x ∈ (newlyOf dal cur vis).map Prod.fst ↔
      x ∈ akeys (get_direct_collaborators_raw dal cur) ∧ x ∉ vis := by
  rw [newlyOf]
  constructor
  · intro hx
    obtain ⟨kv, hkv, rfl⟩ := List.mem_map.mp hx
    obtain ⟨hraw, hfilter⟩ := List.mem_filter.mp hkv
    refine ⟨List.mem_map_of_mem _ hraw, by simpa using hfilter⟩
  · rintro ⟨hak, hnv⟩
    obtain ⟨kv, hkv, rfl⟩ := List.mem_map.mp hak
    exact List.mem_map_of_mem _
      (List.mem_filter.mpr ⟨hkv, by simpa using hnv⟩)

theorem pf_new_sound (dal : DAL) (t : Nat) :
    ∀ (front : List Str) (v : List Str) (c : List (Str × Conn)),
      ∀ x, x ∈ (process_front dal t front v c).1 →
        x ∉ v ∧ ∃ p, p ∈ front ∧
          x ∈ akeys (get_direct_collaborators_raw dal p) := by
  intro front
  induction front with
  | nil => intro v c x hx; simp [process_front] at hx
  | cons cur rest ih =>
    intro v c x hx
    rw [pf_cons] at hx
    rcases List.mem_append.mp hx with hx' | hx'
    · obtain ⟨hak, hnv⟩ := (mem_newly_keys dal cur v x).mp hx'
      exact ⟨hnv, cur, List.mem_cons_self _ _, hak⟩
    · obtain ⟨hnv', p, hp, hak⟩ := ih _ _ x hx'
      refine ⟨fun hc => hnv' (List.mem_append.mpr (Or.inl hc)),
        p, List.mem_cons_of_mem _ hp, hak⟩

theorem pf_complete (dal : DAL) (t : Nat) :
    ∀ (front : List Str) (v : List Str) (c : List (Str × Conn)),
      ∀ p, p ∈ front → ∀ x, x ∈ akeys (get_direct_collaborators_raw dal p) →
        x ∈ (process_front dal t front v c).2.1 := by
  intro front
  induction front with
  | nil => intro v c p hp; simp at hp
  | cons cur rest ih =>
    intro v c p hp x hx
    rw [pf_cons]
    simp only
    rcases List.mem_cons.mp hp with rfl | hp'
    · -- x is visited after the `cur` step, and visited only grows
      have hv' : x ∈ v ++ (newlyOf dal p v).map Prod.fst := by
        by_cases hxv : x ∈ v
        · exact List.mem_append.mpr (Or.inl hxv)
        · exact List.mem_append.mpr
            (Or.inr ((mem_newly_keys dal p v x).mpr ⟨hx, hxv⟩))
      rw [pf_visited]
      exact List.mem_append.mpr (Or.inl hv')
    · exact ih _ _ p hp' x hx

theorem pf_nodup (dal : DAL) (t : Nat) :
    ∀ (front : List Str) (v : List Str) (c : List (Str × Conn)),
      v.Nodup → (process_front dal t front v c).2.1.Nodup := by
  intro front
  induction front with
  | nil => intro v c hv; simpa [process_front] using hv
  | cons cur rest ih =>
    intro v c hv
    rw [pf_cons]
    apply ih
    apply List.Nodup.append hv
    · have : ((newlyOf dal cur v).map Prod.fst).Sublist
          (akeys (get_direct_collaborators_raw dal cur)) := by
        rw [newlyOf, akeys]
        exact (List.filter_sublist _).map _
      exact (raw_keys_spec dal cur).1.sublist this
    · intro a ha hak
      exact ((mem_newly_keys dal cur v a).mp hak).2 ha

theorem map_conn_entry (t : Nat) (l : List (Str × Nat)) (bb : Str)
    (cnt k : Nat)
    (h : aget? (l.map (fun kv => (kv.1, (kv.2, t + 1)))) bb = some (cnt, k)) :
    k = t + 1 ∧ bb ∈ l.map Prod.fst := by
  induction l with
  | nil => simp [aget?] at h
  | cons kv rest ih =>
    by_cases hk : kv.1 = bb
    · rw [List.map_cons, aget?, if_pos hk] at h
      have heq := (Option.some_injective _ h).symm
      refine ⟨(congrArg Prod.snd heq : _), ?_⟩
      rw [List.map_cons]
      exact List.mem_cons.mpr (Or.inl hk.symm)
    · rw [List.map_cons, aget?, if_neg hk] at h
      obtain ⟨h1, h2⟩ := ih h
      exact ⟨h1, by rw [List.map_cons]; exact List.mem_cons_of_mem _ h2⟩

theorem pf_entry (dal : DAL) (t : Nat) :
    ∀ (front : List Str) (v : List Str) (c : List (Str × Conn)),
      (∀ kk, kk ∈ akeys c → kk ∈ v) →
      ∀ bb cnt k,
        aget? (process_front dal t front v c).2.2 bb = some (cnt, k) →
        aget? c bb = some (cnt, k) ∨
          (bb ∈ (process_front dal t front v c).1 ∧ k = t + 1) := by
  intro front
  induction front with
  | nil => intro v c _ bb cnt k h; exact Or.inl h
  | cons cur rest ih =>
    intro v c hkeys bb cnt k h
    rw [pf_cons] at h ⊢
    simp only at h ⊢
    have hkeys' : ∀ kk, kk ∈ akeys (c ++ (newlyOf dal cur v).map
        (fun kv => (kv.1, (kv.2, t + 1)))) →
        kk ∈ v ++ (newlyOf dal cur v).map Prod.fst := by
      intro kk hkk
      rw [akeys, List.map_append] at hkk
      rcases List.mem_append.mp hkk with h' | h'
      · exact List.mem_append.mpr (Or.inl (hkeys kk h'))
      · rw [List.map_map] at h'
        exact List.mem_append.mpr (Or.inr (by
          simpa [Function.comp] using h'))
    rcases ih _ _ hkeys' bb cnt k h with h' | h'
    · by_cases hc : (aget? c bb).isSome
      · obtain ⟨w, hw⟩ := Option.isSome_iff_exists.mp hc
        rw [aget?_append_some _ _ _ _ hw] at h'
        exact Or.inl (hw.trans h')
      · have hcn : aget? c bb = none := Option.not_isSome_iff_eq_none.mp hc
        rw [aget?_append_none _ _ _ hcn] at h'
        obtain ⟨hk1, hk2⟩ := map_conn_entry t _ bb cnt k h'
        exact Or.inr ⟨List.mem_append.mpr (Or.inl hk2), hk1⟩
    · exact Or.inr ⟨List.mem_append.mpr (Or.inr h'.1), h'.2⟩

end BB

namespace BB

theorem keys_append_sub (dal : DAL) (cur : Str) (t : Nat) (v : List Str)
    (c : List (Str × Conn)) (hkeys : ∀ kk, kk ∈ akeys c → kk ∈ v) :
    ∀ kk, kk ∈ akeys (c ++ (newlyOf dal cur v).map
        (fun kv => (kv.1, (kv.2, t + 1)))) →
      kk ∈ v ++ (newlyOf dal cur v).map Prod.fst := by
  intro kk hkk
  rw [akeys, List.map_append] at hkk
  rcases List.mem_append.mp hkk with h' | h'
  · exact List.mem_append.mpr (Or.inl (hkeys kk h'))
  · rw [List.map_map] at h'
    exact List.mem_append.mpr (Or.inr (by simpa [Function.comp] using h'))

theorem level_step (dal : DAL) (maxD t : Nat) (hlt : t < maxD) :
    ∀ (front : List Str) (next v : List Str) (c : List (Str × Conn)) (X : Nat),
      (∀ kk, kk ∈ akeys c → kk ∈ v) →
      bfsLoopF dal maxD (front.length + X)
        (front.map (fun x => (x, t)) ++ next.map (fun y => (y, t + 1))) v c =
      bfsLoopF dal maxD X
        ((next ++ (process_front dal t front v c).1).map (fun y => (y, t + 1)))
        (process_front dal t front v c).2.1
        (process_front dal t front v c).2.2 := by
  intro front
  induction front with
  | nil =>
    intro next v c X _
    simp [process_front]
  | cons cur rest ih =>
    intro next v c X hkeys
    have hfuel : (cur :: rest).length + X = (rest.length + X) + 1 := by
      simp [List.length_cons]
      omega
    rw [hfuel, List.map_cons, List.cons_append, bfsLoopF,
      if_neg (by omega : ¬ maxD ≤ t)]
    simp only
    rw [bfs_fold_spec t (get_direct_collaborators_raw dal cur) _ v c
      (raw_keys_spec dal cur).1 hkeys]
    dsimp only
    have hmm : (newlyOf dal cur v).map (fun kv => (kv.1, t + 1)) =
        ((newlyOf dal cur v).map Prod.fst).map (fun y => (y, t + 1)) := by
      rw [List.map_map]
      rfl
    have hq : (rest.map (fun x => (x, t)) ++ next.map (fun y => (y, t + 1))) ++
        ((get_direct_collaborators_raw dal cur).filter
          (fun kv => decide (kv.1 ∉ v))).map (fun kv => (kv.1, t + 1)) =
        rest.map (fun x => (x, t)) ++
          ((next ++ (newlyOf dal cur v).map Prod.fst).map
            (fun y => (y, t + 1))) := by
      rw [show ((get_direct_collaborators_raw dal cur).filter
          (fun kv => decide (kv.1 ∉ v))) = newlyOf dal cur v from rfl, hmm,
        List.map_append, List.append_assoc]
    rw [hq]
    rw [show (List.filter (fun kv => decide (kv.1 ∉ v))
      (get_direct_collaborators_raw dal cur)) = newlyOf dal cur v from rfl]
    rw [ih (next ++ (newlyOf dal cur v).map Prod.fst)
      (v ++ (newlyOf dal cur v).map Prod.fst)
      (c ++ (newlyOf dal cur v).map (fun kv => (kv.1, (kv.2, t + 1)))) X
      (keys_append_sub dal cur t v c hkeys)]
    rw [pf_cons]
    simp [List.append_assoc]

theorem bfs_levels_bridge (dal : DAL) (maxD : Nat) :
    ∀ (b t : Nat) (front v : List Str) (c : List (Str × Conn)) (extra : Nat),
      maxD ≤ t + b →
      (∀ kk, kk ∈ akeys c → kk ∈ v) →
      bfsLoopF dal maxD ((levelsTrace dal maxD b t front v c).2 + extra)
        (front.map (fun x => (x, t))) v c =
      (levelsTrace dal maxD b t front v c).1 := by
  intro b
  induction b with
  | zero =>
    intro t front v c extra hle _
    rw [levelsTrace]
    apply bfs_drain
    · intro e he
      obtain ⟨x, _, rfl⟩ := List.mem_map.mp he
      simpa using hle
    · simp
  | succ b' ih =>
    intro t front v c extra hle hkeys
    by_cases hlt : t < maxD
    · rw [levelsTrace, if_pos hlt]
      simp only
      have hstep := level_step dal maxD t hlt front [] v c
        ((levelsTrace dal maxD b' (t + 1)
          (process_front dal t front v c).1
          (process_front dal t front v c).2.1
          (process_front dal t front v c).2.2).2 + extra) hkeys
      rw [List.map_nil, List.append_nil] at hstep
      rw [show front.length + ((levelsTrace dal maxD b' (t + 1)
          (process_front dal t front v c).1
          (process_front dal t front v c).2.1
          (process_front dal t front v c).2.2).2 + extra) =
        (front.length + (levelsTrace dal maxD b' (t + 1)
          (process_front dal t front v c).1
          (process_front dal t front v c).2.1
          (process_front dal t front v c).2.2).2) + extra from by omega] at hstep
      rw [hstep, List.nil_append]
      apply ih
      · omega
      · intro kk hkk
        rw [pf_keys] at hkk
        rw [pf_visited]
        rcases List.mem_append.mp hkk with h' | h'
        · exact List.mem_append.mpr (Or.inl (hkeys kk h'))
        · exact List.mem_append.mpr (Or.inr h')
    · rw [levelsTrace, if_neg hlt]
      apply bfs_drain
      · intro e he
        obtain ⟨x, _, rfl⟩ := List.mem_map.mp he
        simpa using Nat.le_of_not_lt hlt
      · simp

end BB

namespace BB

/-! ### Fuel sufficiency: the trace dequeues at most one entry per
distinct visited artist, so `all_artists_count + 1` steps are enough. -/

theorem trace_fuel (dal : DAL) (maxD : Nat) (U : List Str)
    (hU : ∀ y, y ∈ dal.songs_to_artists.flatMap (fun e => e.2) → y ∈ U) :
    ∀ (b t : Nat) (front v : List Str) (c : List (Str × Conn)),
      v.Nodup → (∀ x, x ∈ v → x ∈ U) →
      (levelsTrace dal maxD b t front v c).2 + v.length ≤
        front.length + U.length := by
  intro b
  induction b with
  | zero =>
    intro t front v c hnd hsub
    rw [levelsTrace]
    have hlen : v.length ≤ U.length :=
      (List.subperm_of_subset hnd hsub).length_le
    simp only
    omega
  | succ b' ih =>
    intro t front v c hnd hsub
    by_cases hlt : t < maxD
    · rw [levelsTrace, if_pos hlt]
      simp only
      have hnd' := pf_nodup dal t front v c hnd
      have hvis := pf_visited dal t front v c
      have hsub' : ∀ x, x ∈ (process_front dal t front v c).2.1 → x ∈ U := by
        intro x hx
        rw [hvis] at hx
        rcases List.mem_append.mp hx with h' | h'
        · exact hsub x h'
        · obtain ⟨_, p, _, hak⟩ := pf_new_sound dal t front v c x h'
          exact hU x (((raw_keys_spec dal p).2 x hak).2)
      have hih := ih (t + 1) (process_front dal t front v c).1
        (process_front dal t front v c).2.1
        (process_front dal t front v c).2.2 hnd' hsub'
      have hlen' : (process_front dal t front v c).2.1.length =
          v.length + (process_front dal t front v c).1.length := by
        rw [hvis, List.length_append]
      omega
    · rw [levelsTrace, if_neg hlt]
      have hlen : v.length ≤ U.length :=
        (List.subperm_of_subset hnd hsub).length_le
      simp only
      omega

end BB

namespace BB

/-! ### Level invariants: the trace's connection map records exactly the
artists at each exact hop distance. -/

theorem levels_correct (dal : DAL) (maxD : Nat) (A : Str)
    (htrim : ∀ e, e ∈ dal.songs_to_artists → ∀ a, a ∈ e.2 → pstrip a = a) :
    ∀ (b t : Nat) (front v : List Str) (c : List (Str × Conn)),
      t + b = maxD →
      (∀ x, x ∈ front ↔ distEq dal A x t) →
      (∀ x, x ∈ v ↔ reachIn dal A t x) →
      (∀ bb cnt k, aget? c bb = some (cnt, k) →
        1 ≤ k ∧ k ≤ t ∧ distEq dal A bb k) →
      v = A :: akeys c →
      (∀ x, x ∈ v → pstrip x = x) →
      ∀ bb k,
        (∃ cnt, aget? (levelsTrace dal maxD b t front v c).1 bb =
            some (cnt, k)) ↔
          (1 ≤ k ∧ k ≤ maxD ∧ distEq dal A bb k) := by
  intro b
  induction b with
  | zero =>
    intro t front v c ht hfront hv hc hvc htr bb k
    have h0 : (levelsTrace dal maxD 0 t front v c).1 = c := rfl
    rw [h0]
    constructor
    · rintro ⟨cnt, hget⟩
      obtain ⟨h1, h2, h3⟩ := hc bb cnt k hget
      exact ⟨h1, by omega, h3⟩
    · rintro ⟨hk1, hk2, hdist⟩
      have hreach : reachIn dal A t bb :=
        reachIn_mono dal A k t bb hdist.1 (by omega)
      have hbv : bb ∈ v := (hv bb).mpr hreach
      have hbA : bb ≠ A := by
        intro hcA
        have h0r : reachIn dal A 0 bb := hcA
        exact hdist.2 0 (by omega) h0r
      have hbk : bb ∈ akeys c := by
        rw [hvc] at hbv
        rcases List.mem_cons.mp hbv with h' | h'
        · exact absurd h' hbA
        · exact h'
      obtain ⟨w, hw⟩ :=
        Option.isSome_iff_exists.mp (mem_aget?_of_mem_akeys c bb hbk)
      obtain ⟨cnt', k'⟩ := w
      obtain ⟨h1, h2, h3⟩ := hc bb cnt' k' hw
      have hkk : k' = k := distEq_unique dal A bb k' k h3 hdist
      subst hkk
      exact ⟨cnt', hw⟩
  | succ b' ih =>
    intro t front v c ht hfront hv hc hvc htr bb k
    have hlt : t < maxD := by omega
    have hstep : (levelsTrace dal maxD (b' + 1) t front v c).1 =
        (levelsTrace dal maxD b' (t + 1)
          (process_front dal t front v c).1
          (process_front dal t front v c).2.1
          (process_front dal t front v c).2.2).1 := by
      rw [levelsTrace, if_pos hlt]
    rw [hstep]
    have hfv : ∀ x, x ∈ front → x ∈ v :=
      fun x hx => (hv x).mpr ((hfront x).mp hx).1
    have hadj_iff : ∀ p, p ∈ front → ∀ x,
        (x ∈ akeys (get_direct_collaborators_raw dal p) ↔ adjB dal p x) :=
      fun p hp x => raw_keys_iff dal p (htr p (hfv p hp)) x
    have hv' : ∀ x, x ∈ (process_front dal t front v c).2.1 ↔
        reachIn dal A (t + 1) x := by
      intro x
      constructor
      · intro hx
        rw [pf_visited] at hx
        show reachIn dal A t x ∨ ∃ p, reachIn dal A t p ∧ adjB dal p x
        rcases List.mem_append.mp hx with h' | h'
        · exact Or.inl ((hv x).mp h')
        · obtain ⟨hnv, p, hp, hak⟩ := pf_new_sound dal t front v c x h'
          exact Or.inr ⟨p, ((hfront p).mp hp).1, (hadj_iff p hp x).mp hak⟩
      · intro hx
        rcases (show reachIn dal A t x ∨
            ∃ p, reachIn dal A t p ∧ adjB dal p x from hx) with
          h' | ⟨p, hp, hadj⟩
        · rw [pf_visited]
          exact List.mem_append.mpr (Or.inl ((hv x).mpr h'))
        · by_cases hxt : reachIn dal A t x
          · rw [pf_visited]
            exact List.mem_append.mpr (Or.inl ((hv x).mpr hxt))
          · have hpd : distEq dal A p t := by
              refine ⟨hp, ?_⟩
              intro m hm hrm
              have hx' : reachIn dal A (m + 1) x := Or.inr ⟨p, hrm, hadj⟩
              exact hxt (reachIn_mono dal A (m + 1) t x hx' (by omega))
            have hpf : p ∈ front := (hfront p).mpr hpd
            exact pf_complete dal t front v c p hpf x
              ((hadj_iff p hpf x).mpr hadj)
    have hfront' : ∀ x, x ∈ (process_front dal t front v c).1 ↔
        distEq dal A x (t + 1) := by
      intro x
      constructor
      · intro hx
        obtain ⟨hnv, p, hp, hak⟩ := pf_new_sound dal t front v c x hx
        refine ⟨Or.inr ⟨p, ((hfront p).mp hp).1, (hadj_iff p hp x).mp hak⟩, ?_⟩
        intro m hm hrm
        exact hnv ((hv x).mpr (reachIn_mono dal A m t x hrm (by omega)))
      · intro hd2
        have hxv' : x ∈ (process_front dal t front v c).2.1 :=
          (hv' x).mpr hd2.1
        rw [pf_visited] at hxv'
        rcases List.mem_append.mp hxv' with h' | h'
        · exact absurd ((hv x).mp h') (hd2.2 t (by omega))
        · exact h'
    have hkeys0 : ∀ kk, kk ∈ akeys c → kk ∈ v := by
      rw [hvc]
      exact fun kk hkk => List.mem_cons_of_mem _ hkk
    have hc' : ∀ bb2 cnt2 k2,
        aget? (process_front dal t front v c).2.2 bb2 = some (cnt2, k2) →
        1 ≤ k2 ∧ k2 ≤ t + 1 ∧ distEq dal A bb2 k2 := by
      intro bb2 cnt2 k2 hget
      rcases pf_entry dal t front v c hkeys0 bb2 cnt2 k2 hget with
        h' | ⟨hmem, hk⟩
      · obtain ⟨h1, h2, h3⟩ := hc bb2 cnt2 k2 h'
        exact ⟨h1, by omega, h3⟩
      · subst hk
        exact ⟨by omega, Nat.le_refl _, (hfront' bb2).mp hmem⟩
    have hvc' : (process_front dal t front v c).2.1 =
        A :: akeys (process_front dal t front v c).2.2 := by
      rw [pf_visited, pf_keys, hvc]
      rfl
    have htr' : ∀ x, x ∈ (process_front dal t front v c).2.1 →
        pstrip x = x := by
      intro x hx
      rw [pf_visited] at hx
      rcases List.mem_append.mp hx with h' | h'
      · exact htr x h'
      · obtain ⟨_, p, _, hak⟩ := pf_new_sound dal t front v c x h'
        obtain ⟨e, he, hxe⟩ :=
          List.mem_flatMap.mp (((raw_keys_spec dal p).2 x hak).2)
        exact htrim e he x hxe
    exact ih (t + 1) (process_front dal t front v c).1
      (process_front dal t front v c).2.1
      (process_front dal t front v c).2.2
      (by omega) hfront' hv' hc' hvc' htr' bb k

/-- A two-song index: song k1 joins a and b, song k2 joins b and c, so c
is at hop distance exactly 2 from a. -/
def dal1 : DAL := ⟨[(S "k1", [S "a", S "b"]), (S "k2", [S "b", S "c"])]⟩

/-- C1: on a song index whose artist names are already trimmed, and for a
trimmed origin `A` and degree bound `d ≥ 1`, the BFS
`neighborsWithinDegree(A, d)` (`_get_connections_bfs`) returns an entry
labelled with hop count `k` for an artist `b` exactly when `b` is not the
origin, `1 ≤ k ≤ d`, and `b`'s minimum hop distance from `A` in the
song-collaboration graph is exactly `k`: the result is exactly the set of
artists other than `A` reachable within `d` hops, each mapped to its
minimum hop count, and never contains `A` itself. -/
theorem C1_bfs_exact (dal : DAL) (A : Str) (d : Nat) (hd : 1 ≤ d)
    (htrim : ∀ e, e ∈ dal.songs_to_artists → ∀ a, a ∈ e.2 → pstrip a = a)
    (hA : pstrip A = A) :
    ∀ b k, (∃ cnt, aget? (get_connections_bfs dal A d) b = some (cnt, k)) ↔
      (b ≠ A ∧ 1 ≤ k ∧ k ≤ d ∧ reachIn dal A k b ∧
        ∀ m, m < k → ¬ reachIn dal A m b) := by
  intro b k
  have hU : ∀ y, y ∈ dal.songs_to_artists.flatMap (fun e => e.2) →
      y ∈ A :: dedupKeep (dal.songs_to_artists.flatMap (fun e => e.2)) :=
    fun y hy => List.mem_cons_of_mem A ((mem_dedupKeep _ _).mpr hy)
  have hfuel := trace_fuel dal d
    (A :: dedupKeep (dal.songs_to_artists.flatMap (fun e => e.2))) hU
    d 0 [A] [A] [] (by simp) (fun x hx => by
      rcases List.mem_singleton.mp hx with rfl
      exact List.mem_cons_self _ _)
  have hN : all_artists_count dal =
      (dedupKeep (dal.songs_to_artists.flatMap (fun e => e.2))).length := rfl
  simp only [List.length_singleton, List.length_cons] at hfuel
  have hrun : get_connections_bfs dal A d =
      (levelsTrace dal d d 0 [A] [A] []).1 := by
    rw [get_connections_bfs]
    simp only [hA]
    rw [show all_artists_count dal + 1 =
      (levelsTrace dal d d 0 [A] [A] []).2 +
        (all_artists_count dal + 1 -
          (levelsTrace dal d d 0 [A] [A] []).2) from by omega]
    exact bfs_levels_bridge dal d d 0 [A] [A] [] _ (by omega)
      (fun kk hkk => absurd hkk (not_mem_akeys_nil kk))
  have hfront0 : ∀ x, x ∈ ([A] : List Str) ↔ distEq dal A x 0 := by
    intro x
    constructor
    · intro hx
      show reachIn dal A 0 x ∧ ∀ m, m < 0 → ¬ reachIn dal A m x
      exact ⟨List.mem_singleton.mp hx, fun m hm => absurd hm (by omega)⟩
    · intro hd2
      exact List.mem_singleton.mpr hd2.1
  have hv0 : ∀ x, x ∈ ([A] : List Str) ↔ reachIn dal A 0 x := by
    intro x
    constructor
    · intro hx
      exact List.mem_singleton.mp hx
    · intro h
      exact List.mem_singleton.mpr h
  have hc0 : ∀ bb cnt k2, aget? ([] : List (Str × Conn)) bb = some (cnt, k2) →
      1 ≤ k2 ∧ k2 ≤ 0 ∧ distEq dal A bb k2 := by
    intro bb cnt k2 h
    exact absurd h (by simp [aget?])
  have hmain := levels_correct dal d A htrim d 0 [A] [A] []
    (by omega) hfront0 hv0 hc0 rfl
    (fun x hx => by rcases List.mem_singleton.mp hx with rfl; exact hA) b k
  rw [hrun, hmain]
  constructor
  · rintro ⟨h1, h2, h3⟩
    refine ⟨?_, h1, h2, h3.1, h3.2⟩
    intro hba
    exact h3.2 0 (by omega) hba
  · rintro ⟨hne, h1, h2, hr, hmin⟩
    exact ⟨h1, h2, hr, hmin⟩

/-- Witness for C1 at the two-song index `dal1`: artist c lies at hop
distance exactly 2 from a, and the BFS records it at degree 2. -/
theorem C1_bfs_exact_witness :
    S "c" ≠ S "a" ∧ 1 ≤ 2 ∧ 2 ≤ 2 ∧ reachIn dal1 (S "a") 2 (S "c") ∧
      ∀ m, m < 2 → ¬ reachIn dal1 (S "a") m (S "c") :=
  (C1_bfs_exact dal1 (S "a") 2 (by decide) (by decide) (by decide)
    (S "c") 2).mp ⟨1, by decide⟩

end BB
